import Mathlib

/-!
# Floating-point classification and estimate instructions

A shallow embedding of `MathUtil::ClassifyDouble`, `MathUtil::ClassifyFloat`,
`MathUtil::ApproximateReciprocalSquareRoot` and `MathUtil::ApproximateReciprocal`
from `src/common/src/MathUtil.cpp`.

Conventions of the embedding:

* a `double` (resp. `float`) is represented by its IEEE-754 bit pattern, a natural
  number below `2^64` (resp. `2^32`); the union between `valf` and `vali` is the
  identity on that pattern;
* an `int64_t` variable is represented by its two's-complement pattern, a natural
  number below `2^64`; `&`, `|` act on patterns directly, while `+`, `-`, `/`, `<<`,
  `>>` and the signed comparisons go through `toInt64` / `ofInt64`;
* an `int` variable (the table index `i`, the table entries) is an `Int`;
* an array read outside the table, and a loop that has not finished when the fuel
  is used up, make the result `none`;
* where a statement speaks of the number a pattern denotes, the pattern is read as an
  exact rational by `doubleValue`.
-/

namespace MathUtil

/-! ## Declarations of `Common/MathUtil.h` -/

/-- Modelled from the spec: the header `Common/MathUtil.h`, which declares the
`PPC_FPCLASS_*` result codes, is not among the sources. The spec (section 3, FPClass,
and section 9) makes the result a closed enumeration with the nine labels that
`ClassifyDouble` and `ClassifyFloat` return. -/
inductive FPClass
  | PPC_FPCLASS_QNAN
  | PPC_FPCLASS_NINF
  | PPC_FPCLASS_NN
  | PPC_FPCLASS_ND
  | PPC_FPCLASS_NZ
  | PPC_FPCLASS_PZ
  | PPC_FPCLASS_PD
  | PPC_FPCLASS_PN
  | PPC_FPCLASS_PINF
  deriving DecidableEq, Repr, Fintype

open FPClass

/-- Modelled from the spec: `DOUBLE_SIGN` of the missing header, the top bit of a
64-bit pattern (spec section 3: `sign` (top bit)). -/
def DOUBLE_SIGN : Nat := 0x8000000000000000

/-- Modelled from the spec: `DOUBLE_EXP` of the missing header, the 11 exponent bits
below the sign (spec section 3: `exponent` (11 or 8 bits)). -/
def DOUBLE_EXP : Nat := 0x7FF0000000000000

/-- Modelled from the spec: `DOUBLE_FRAC` of the missing header, the low 52 bits
(spec section 3: `mantissa` (52 or 23 bits)). -/
def DOUBLE_FRAC : Nat := 0x000FFFFFFFFFFFFF

/-- Modelled from the spec: `DOUBLE_ZERO` of the missing header (spec section 4.2,
step 1: `0 < exponent`). -/
def DOUBLE_ZERO : Nat := 0

/-- Modelled from the spec: `FLOAT_SIGN` of the missing header, the top bit of a
32-bit pattern. -/
def FLOAT_SIGN : Nat := 0x80000000

/-- Modelled from the spec: `FLOAT_EXP` of the missing header, the 8 exponent bits
below the sign. -/
def FLOAT_EXP : Nat := 0x7F800000

/-- Modelled from the spec: `FLOAT_FRAC` of the missing header, the low 23 bits. -/
def FLOAT_FRAC : Nat := 0x007FFFFF

/-- Modelled from the spec: `FLOAT_ZERO` of the missing header. -/
def FLOAT_ZERO : Nat := 0

/-! ## Classification -/

/-- `MathUtil::ClassifyDouble` on the bit pattern `dvalue` (`value.i` in the source). -/
def ClassifyDouble (dvalue : Nat) : FPClass :=
  let sign := dvalue &&& DOUBLE_SIGN
  let exp := dvalue &&& DOUBLE_EXP
  if exp > DOUBLE_ZERO ∧ exp < DOUBLE_EXP then
    if sign ≠ 0 then PPC_FPCLASS_NN else PPC_FPCLASS_PN
  else
    let mantissa := dvalue &&& DOUBLE_FRAC
    if mantissa ≠ 0 then
      if exp ≠ 0 then
        PPC_FPCLASS_QNAN
      else
        if sign ≠ 0 then PPC_FPCLASS_ND else PPC_FPCLASS_PD
    else if exp ≠ 0 then
      if sign ≠ 0 then PPC_FPCLASS_NINF else PPC_FPCLASS_PINF
    else
      if sign ≠ 0 then PPC_FPCLASS_NZ else PPC_FPCLASS_PZ

/-- `MathUtil::ClassifyFloat` on the bit pattern `fvalue` (`value.i` in the source). -/
def ClassifyFloat (fvalue : Nat) : FPClass :=
  let sign := fvalue &&& FLOAT_SIGN
  let exp := fvalue &&& FLOAT_EXP
  if exp > FLOAT_ZERO ∧ exp < FLOAT_EXP then
    if sign ≠ 0 then PPC_FPCLASS_NN else PPC_FPCLASS_PN
  else
    let mantissa := fvalue &&& FLOAT_FRAC
    if mantissa ≠ 0 then
      if exp ≠ 0 then
        PPC_FPCLASS_QNAN
      else
        if sign ≠ 0 then PPC_FPCLASS_ND else PPC_FPCLASS_PD
    else if exp ≠ 0 then
      if sign ≠ 0 then PPC_FPCLASS_NINF else PPC_FPCLASS_PINF
    else
      if sign ≠ 0 then PPC_FPCLASS_NZ else PPC_FPCLASS_PZ

/-- The classifier as the spec words it (section 4.2, `classify(bits, fieldWidths)`),
for a pattern with `expBits` exponent bits above `manBits` mantissa bits and the sign
bit on top. The decision order is the spec's: steps 1 to 4. -/
def classifySpec (expBits manBits bits : Nat) : FPClass :=
  let sign := bits / 2 ^ (expBits + manBits) % 2
  let exponent := bits / 2 ^ manBits % 2 ^ expBits
  let mantissa := bits % 2 ^ manBits
  let max_exponent := 2 ^ expBits - 1
  if 0 < exponent ∧ exponent < max_exponent then
    if sign = 0 then PPC_FPCLASS_PN else PPC_FPCLASS_NN
  else if mantissa ≠ 0 then
    if exponent = max_exponent then PPC_FPCLASS_QNAN
    else if sign = 0 then PPC_FPCLASS_PD else PPC_FPCLASS_ND
  else if exponent = max_exponent then
    if sign = 0 then PPC_FPCLASS_PINF else PPC_FPCLASS_NINF
  else
    if sign = 0 then PPC_FPCLASS_PZ else PPC_FPCLASS_NZ

/-! ## Machine arithmetic -/

/-- The value of a 64-bit two's-complement pattern read as an `int64_t`. -/
def toInt64 (x : Nat) : Int :=
  if x % 2 ^ 64 < 2 ^ 63 then ((x % 2 ^ 64 : Nat) : Int) else ((x % 2 ^ 64 : Nat) : Int) - 2 ^ 64

/-- The 64-bit two's-complement pattern of an integer (wrapping). -/
def ofInt64 (i : Int) : Nat := (i % 2 ^ 64).toNat

/-- The value of the low 32 bits of a pattern read as an `int`: the conversion
`(int)x` of an `int64_t`. -/
def toInt32 (x : Nat) : Int :=
  if x % 2 ^ 32 < 2 ^ 31 then ((x % 2 ^ 32 : Nat) : Int) else ((x % 2 ^ 32 : Nat) : Int) - 2 ^ 32

/-- The `int64_t` sum `x + y`, on patterns. -/
def add64 (x y : Nat) : Nat := ofInt64 (toInt64 x + toInt64 y)

/-- The `int64_t` difference `x - y`, on patterns. -/
def sub64 (x y : Nat) : Nat := ofInt64 (toInt64 x - toInt64 y)

/-- The `int64_t` quotient `x / y`, on patterns: C++ division truncates toward zero. -/
def div64 (x y : Nat) : Nat := ofInt64 ((toInt64 x).tdiv (toInt64 y))

/-- The `int64_t` shift `x << k`, on patterns. -/
def shl64 (x k : Nat) : Nat := (x <<< k) % 2 ^ 64

/-- The `int64_t` shift `x >> k`, on patterns (arithmetic shift). -/
def shr64 (x k : Nat) : Nat := ofInt64 (toInt64 x >>> k)

/-- The signed comparison `x < y` of two `int64_t` patterns. -/
def lt64 (x y : Nat) : Bool := decide (toInt64 x < toInt64 y)

/-- An array read `table[index]` with an `int` index; `none` outside the array. -/
def tableAt (table : List Int) (index : Int) : Option Int :=
  if 0 ≤ index then table[index.toNat]? else none

/-! ## IEEE-754 binary64 values and operations used by the estimators

The estimators use a handful of `double` constants and operations from the C++
library and the FPU. They are given on bit patterns, as an IEEE-754 binary64 target
(x86-64, AArch64) computes them. -/

/-- Bit pattern of `std::numeric_limits<double>::infinity()`. -/
def infinity : Nat := 0x7FF0000000000000

/-- Bit pattern of `std::numeric_limits<double>::quiet_NaN()`: positive sign, exponent
all ones, only the top mantissa bit set. -/
def quiet_NaN : Nat := 0x7FF8000000000000

/-- Bit pattern of `std::numeric_limits<float>::max()` converted to `double`:
`(2 - 2^-23) * 2^127`, exponent field 1150 and the top 23 mantissa bits set. -/
def float_max : Nat := 0x47EFFFFFE0000000

/-- Unary minus on a `double`: flips the sign bit. -/
def fneg (x : Nat) : Nat := x ^^^ (1 <<< 63)

/-- The library function `copysign(x, y)`: the magnitude of `x` with the sign bit of `y`. -/
def copysign (x y : Nat) : Nat := (x &&& ((1 <<< 63) - 1)) ||| (y &&& (1 <<< 63))

/-- The sum `0.0 + x` in round-to-nearest: a NaN operand is returned quieted (top
mantissa bit set, sign and payload kept), `0.0 + -0.0` is `+0.0`, and any other `x`
is returned unchanged. -/
def addZero (x : Nat) : Nat :=
  if x &&& (0x7FF <<< 52) = 0x7FF <<< 52 ∧ x &&& ((1 <<< 52) - 1) ≠ 0 then
    x ||| (1 <<< 51)
  else if x = 1 <<< 63 then 0
  else x

/-! ## Reciprocal square root estimate -/

/-- The table `frsqrte_expected_base`. -/
def frsqrte_expected_base : List Int := [
    0x3ffa000, 0x3c29000, 0x38aa000, 0x3572000, 0x3279000, 0x2fb7000, 0x2d26000, 0x2ac0000,
    0x2881000, 0x2665000, 0x2468000, 0x2287000, 0x20c1000, 0x1f12000, 0x1d79000, 0x1bf4000,
    0x1a7e800, 0x17cb800, 0x1552800, 0x130c000, 0x10f2000, 0x0eff000, 0x0d2e000, 0x0b7c000,
    0x09e5000, 0x0867000, 0x06ff000, 0x05ab800, 0x046a000, 0x0339800, 0x0218800, 0x0105800]

/-- The table `frsqrte_expected_dec`. -/
def frsqrte_expected_dec : List Int := [
    0x7a4, 0x700, 0x670, 0x5f2, 0x584, 0x524, 0x4cc, 0x47e, 0x43a, 0x3fa, 0x3c2,
    0x38e, 0x35e, 0x332, 0x30a, 0x2e6, 0x568, 0x4f3, 0x48d, 0x435, 0x3e7, 0x3a2,
    0x365, 0x32e, 0x2fc, 0x2d0, 0x2a8, 0x283, 0x261, 0x243, 0x226, 0x20b]

/-- The `do { ... } while (!(mantissa & (1LL << 52)))` loop of
`ApproximateReciprocalSquareRoot` on the pair `(exponent, mantissa)`; one unit of
fuel is one execution of the loop body. -/
def normalizeLoop : Nat → Nat → Nat → Option (Nat × Nat)
  | 0, _, _ => none
  | fuel + 1, exponent, mantissa =>
    let exponent := sub64 exponent (1 <<< 52)
    let mantissa := shl64 mantissa 1
    if mantissa &&& (1 <<< 52) = 0 then normalizeLoop fuel exponent mantissa
    else some (exponent, mantissa)

/-- The block `if (!exponent) { ... }` of `ApproximateReciprocalSquareRoot`: the loop,
then `mantissa &= (1LL << 52) - 1` and `exponent += 1LL << 52`. -/
def normalize (fuel exponent mantissa : Nat) : Option (Nat × Nat) :=
  if exponent = 0 then
    match normalizeLoop fuel exponent mantissa with
    | none => none
    | some (exponent, mantissa) =>
      some (add64 exponent (1 <<< 52), mantissa &&& ((1 <<< 52) - 1))
  else some (exponent, mantissa)

/-- The flag `odd_exponent = !(exponent & (1LL << 52))`. -/
def oddExponent (exponent : Nat) : Bool := decide (exponent &&& (1 <<< 52) = 0)

/-- The result exponent
`((0x3FFLL << 52) - ((exponent - (0x3FELL << 52)) / 2)) & (0x7FFLL << 52)`. -/
def frsqrteExponent (exponent : Nat) : Nat :=
  sub64 (0x3FF <<< 52) (div64 (sub64 exponent (0x3FE <<< 52)) 2) &&& (0x7FF <<< 52)

/-- The row `index = i / 2048 + (odd_exponent ? 16 : 0)`. -/
def frsqrteIndex (i : Int) (odd_exponent : Bool) : Int :=
  i.tdiv 2048 + (if odd_exponent then 16 else 0)

/-- The `int` term
`frsqrte_expected_base[index] - frsqrte_expected_dec[index] * (i % 2048)`. -/
def frsqrteEntry (i : Int) (odd_exponent : Bool) : Option Int :=
  let index := frsqrteIndex i odd_exponent
  match tableAt frsqrte_expected_base index, tableAt frsqrte_expected_dec index with
  | some base, some dec => some (base - dec * i.tmod 2048)
  | _, _ => none

/-- The table path of `ApproximateReciprocalSquareRoot` (from the `if (!exponent)`
block to the end), on the fields `sign`, `exponent`, `mantissa`. -/
def frsqrteTablePath (fuel sign exponent mantissa : Nat) : Option Nat :=
  match normalize fuel exponent mantissa with
  | none => none
  | some (exponent, mantissa) =>
    let odd_exponent := oddExponent exponent
    let exponent := frsqrteExponent exponent
    let i := toInt32 (shr64 mantissa 37)
    let vali := sign ||| exponent
    match frsqrteEntry i odd_exponent with
    | none => none
    | some entry => some (vali ||| shl64 (ofInt64 entry) 26)

/-- `MathUtil::ApproximateReciprocalSquareRoot` on the bit pattern `val`; the result
is the bit pattern of the returned `double`. The fuel bounds the denormal loop. -/
def ApproximateReciprocalSquareRoot (fuel val : Nat) : Option Nat :=
  let vali := val
  let mantissa := vali &&& ((1 <<< 52) - 1)
  let sign := vali &&& (1 <<< 63)
  let exponent := vali &&& (0x7FF <<< 52)
  -- Special case 0
  if mantissa = 0 ∧ exponent = 0 then
    some (if sign ≠ 0 then fneg infinity else infinity)
  -- Special case NaN-ish numbers
  else if exponent = 0x7FF <<< 52 then
    if mantissa = 0 then
      if sign ≠ 0 then some quiet_NaN
      else some 0
    else some (addZero vali)
  -- Negative numbers return NaN
  else if sign ≠ 0 then some quiet_NaN
  else frsqrteTablePath fuel sign exponent mantissa

/-! ## Reciprocal estimate -/

/-- The table `fres_expected_base`. -/
def fres_expected_base : List Int := [
    0x7ff800, 0x783800, 0x70ea00, 0x6a0800, 0x638800, 0x5d6200, 0x579000, 0x520800,
    0x4cc800, 0x47ca00, 0x430800, 0x3e8000, 0x3a2c00, 0x360800, 0x321400, 0x2e4a00,
    0x2aa800, 0x272c00, 0x23d600, 0x209e00, 0x1d8800, 0x1a9000, 0x17ae00, 0x14f800,
    0x124400, 0x0fbe00, 0x0d3800, 0x0ade00, 0x088400, 0x065000, 0x041c00, 0x020c00]

/-- The table `fres_expected_dec`. -/
def fres_expected_dec : List Int := [
    0x3e1, 0x3a7, 0x371, 0x340, 0x313, 0x2ea, 0x2c4, 0x2a0, 0x27f, 0x261, 0x245,
    0x22a, 0x212, 0x1fb, 0x1e5, 0x1d1, 0x1be, 0x1ac, 0x19b, 0x18b, 0x17c, 0x16e,
    0x15b, 0x15b, 0x143, 0x143, 0x12d, 0x12d, 0x11a, 0x11a, 0x108, 0x106]

/-- The `int` term
`fres_expected_base[i / 1024] - (fres_expected_dec[i / 1024] * (i % 1024) + 1) / 2`. -/
def fresEntry (i : Int) : Option Int :=
  match tableAt fres_expected_base (i.tdiv 1024), tableAt fres_expected_dec (i.tdiv 1024) with
  | some base, some dec => some (base - (dec * i.tmod 1024 + 1).tdiv 2)
  | _, _ => none

/-- The table path of `ApproximateReciprocal` (from
`exponent = (0x7FDLL << 52) - exponent` to the end), on the fields. -/
def fresTablePath (sign exponent mantissa : Nat) : Option Nat :=
  let exponent := sub64 (0x7FD <<< 52) exponent
  let i := toInt32 (shr64 mantissa 37)
  let vali := sign ||| exponent
  match fresEntry i with
  | none => none
  | some entry => some (vali ||| shl64 (ofInt64 entry) 29)

/-- `MathUtil::ApproximateReciprocal` on the bit pattern `val`; the result is the bit
pattern of the returned `double`. -/
def ApproximateReciprocal (val : Nat) : Option Nat :=
  let valf := val
  let vali := val
  let mantissa := vali &&& ((1 <<< 52) - 1)
  let sign := vali &&& (1 <<< 63)
  let exponent := vali &&& (0x7FF <<< 52)
  -- Special case 0
  if mantissa = 0 ∧ exponent = 0 then
    some (copysign infinity valf)
  -- Special case NaN-ish numbers
  else if exponent = 0x7FF <<< 52 then
    if mantissa = 0 then some (copysign 0 valf)
    else some (addZero valf)
  -- Special case small inputs
  else if lt64 exponent (895 <<< 52) then
    some (copysign float_max valf)
  -- Special case large inputs
  else if !lt64 exponent (1149 <<< 52) then
    some (copysign 0 valf)
  else fresTablePath sign exponent mantissa


/-! ## Vocabulary of the statements -/

/-- The rational number a finite binary64 pattern denotes, with sign bit `s`, exponent
field `e` and mantissa field `m`: `(-1)^s * m * 2^(-1074)` for a zero or a denormal
(`e = 0`), and `(-1)^s * (2^52 + m) * 2^(e - 1075)` for a normal number. -/
def doubleValue (bits : Nat) : ℚ :=
  let s : Nat := bits / 2 ^ 63 % 2
  let e : Nat := bits / 2 ^ 52 % 2048
  let m : Nat := bits % 2 ^ 52
  (if s = 0 then (1 : ℚ) else -1) *
    (if e = 0 then (m : ℚ) * (2 : ℚ) ^ (-1074 : ℤ)
     else ((2 : ℚ) ^ 52 + (m : ℚ)) * (2 : ℚ) ^ ((e : ℤ) - 1075))

/-- The normalised stored exponent of a finite nonzero pattern, in exponent-field
units: the exponent field of a normal number, and `p - 51` for a denormal whose
highest set mantissa bit is at position `p`. -/
def normalisedExponent (v : Nat) : Int :=
  if v / 2 ^ 52 % 2048 = 0 then (Nat.log 2 (v % 2 ^ 52) : Int) - 51
  else ((v / 2 ^ 52 % 2048 : Nat) : Int)

/-- The mantissa field of a finite nonzero pattern once normalised: the mantissa field
of a normal number, and for a denormal the mantissa shifted left until its highest set
bit reaches position 52, that bit removed. -/
def normalisedMantissa (v : Nat) : Nat :=
  if v / 2 ^ 52 % 2048 = 0 then
    v % 2 ^ 52 * 2 ^ (52 - Nat.log 2 (v % 2 ^ 52)) % 2 ^ 52
  else v % 2 ^ 52

/-- The interpolated term `base[row] - dec[row] * offset` of the square-root tables. -/
def frsqrteTerm (row offset : Nat) : Int :=
  frsqrte_expected_base.getD row 0 - frsqrte_expected_dec.getD row 0 * (offset : Int)

/-- The interpolated term `base[row] - (dec[row] * offset + 1) div 2` of the reciprocal
tables. -/
def fresTerm (row offset : Nat) : Int :=
  fres_expected_base.getD row 0 - (fres_expected_dec.getD row 0 * (offset : Int) + 1) / 2

/-! ## Quantities of the accuracy proofs -/

/-- The offset at which the accuracy proof of the square-root estimate takes the tangent
of the cubic `(2^26 + base - dec * k)^2 * (A + 1 + k)` on row `r`, where
`A = 2^15 + 2048 * (r mod 16)`: the offset near which the cubic is largest. -/
def frsqrteTangent (r : Nat) : Int :=
  (2 ^ 26 + frsqrte_expected_base.getD r 0 -
      2 * frsqrte_expected_dec.getD r 0 * (2 ^ 15 + 2048 * ((r % 16 : Nat) : Int) + 1)) /
    (3 * frsqrte_expected_dec.getD r 0)

/-- The numeric conditions on one row of the square-root tables (leading significand
`A / 2^15`, base `B`, decrement `D`, tangent offset `k0`) under which the cubic
`(2^26 + B - D * k)^2 * (A + k)` stays above `c`, and the cubic
`(2^26 + B - D * k)^2 * (A + 1 + k)` below `C`, for every offset `k` in `0..2047`. -/
@[reducible] def frsqrteRowBounds (A B D k0 c C : Int) : Prop :=
  0 ≤ D ∧
  D * (A + 4094) ≤ 2 * (2 ^ 26 + B) ∧
  c ≤ (2 ^ 26 + B) ^ 2 * A ∧
  c ≤ (2 ^ 26 + B - 2047 * D) ^ 2 * (A + 2047) ∧
  D * (A + 1 + 2047 + 2 * k0) ≤ 2 * (2 ^ 26 + B) ∧
  (2 ^ 26 + B - D * k0) ^ 2 * (A + 1 + k0) +
    (2 ^ 26 + B - D * k0) * (2 ^ 26 + B - D * k0 - 2 * D * (A + 1 + k0)) * (0 - k0) ≤ C ∧
  (2 ^ 26 + B - D * k0) ^ 2 * (A + 1 + k0) +
    (2 ^ 26 + B - D * k0) * (2 ^ 26 + B - D * k0 - 2 * D * (A + 1 + k0)) * (2047 - k0) ≤ C

/-! ## Single precision -/

/-- The conversion `(double)f` of a binary32 pattern `f` to binary64, which is exact: a
zero or an infinity keeps its sign, a normal number with exponent field `e` gets the
exponent field `e + 896` and its 23 mantissa bits on top of the 52, a denormal with
highest set mantissa bit at position `p` becomes the normal number with exponent field
`874 + p`, and a NaN keeps sign and payload and is quieted. -/
def floatToDouble (f : Nat) : Nat :=
  let s : Nat := f / 2 ^ 31 % 2
  let e : Nat := f / 2 ^ 23 % 256
  let m : Nat := f % 2 ^ 23
  if e = 255 then
    if m = 0 then s * 2 ^ 63 + 2047 * 2 ^ 52
    else s * 2 ^ 63 + 2047 * 2 ^ 52 + ((m * 2 ^ 29) ||| (1 <<< 51))
  else if e = 0 then
    if m = 0 then s * 2 ^ 63
    else s * 2 ^ 63 + (874 + Nat.log 2 m) * 2 ^ 52 +
      (m * 2 ^ (23 - Nat.log 2 m) % 2 ^ 23) * 2 ^ 29
  else s * 2 ^ 63 + (e + 896) * 2 ^ 52 + m * 2 ^ 29

/-- The pairs `(i, j)` of mantissa indices (`i = mantissa >> 37`, `i < j`) at which the
reciprocal estimate steps up: the term at `j` is larger than the term at `i`. They sit
at the boundaries between rows 0/1, 5/6, 10/11, 13/14, 17/18 and 23/24. -/
def fresStepUps : List (Nat × Nat) :=
  [(1023, 1024), (6143, 6144), (11263, 11264),
   (14334, 14336), (14335, 14336), (14335, 14337),
   (18430, 18432), (18431, 18432), (18431, 18433),
   (24574, 24576), (24575, 24576), (24574, 24577), (24575, 24577), (24575, 24578)]

/-! ## Sample patterns -/

/-- Nine 64-bit patterns, one of each class: `1.0`, `-1.0`, the least denormal and its
negative, the two zeros, the two infinities and a NaN. -/
def doubleSamples : List Nat :=
  [0x7FF8000000000000, 0xFFF0000000000000, 0xBFF0000000000000, 0x8000000000000001,
   0x8000000000000000, 0x0000000000000000, 0x0000000000000001, 0x3FF0000000000000,
   0x7FF0000000000000]

/-- Nine 32-bit patterns, one of each class. -/
def floatSamples : List Nat :=
  [0x7FC00000, 0xFF800000, 0xBF800000, 0x80000001,
   0x80000000, 0x00000000, 0x00000001, 0x3F800000,
   0x7F800000]

/-! ## Bit fields as quotients and remainders -/

/-- Masking with `j` ones placed at bit `k` extracts the field `v / 2^k % 2^j`, left in
place. -/
theorem and_shifted_mask (v j k : Nat) :
    v &&& ((2 ^ j - 1) <<< k) = (v / 2 ^ k % 2 ^ j) * 2 ^ k := by
  apply Nat.eq_of_testBit_eq
  intro i
  rw [Nat.mul_comm _ (2 ^ k), ← Nat.shiftRight_eq_div_pow]
  simp only [Nat.testBit_and, Nat.testBit_shiftLeft, Nat.testBit_two_pow_sub_one,
    Nat.testBit_mul_pow_two, Nat.testBit_mod_two_pow, Nat.testBit_shiftRight]
  by_cases h : i ≥ k
  · have e : k + (i - k) = i := by omega
    by_cases h2 : i - k < j <;> simp [h, h2, e]
  · simp [h]

theorem and_DOUBLE_SIGN (v : Nat) : v &&& DOUBLE_SIGN = (v / 2 ^ 63 % 2) * 2 ^ 63 :=
  and_shifted_mask v 1 63

theorem and_DOUBLE_EXP (v : Nat) : v &&& DOUBLE_EXP = (v / 2 ^ 52 % 2048) * 2 ^ 52 :=
  and_shifted_mask v 11 52

theorem and_DOUBLE_FRAC (v : Nat) : v &&& DOUBLE_FRAC = v % 2 ^ 52 :=
  Nat.and_pow_two_sub_one_eq_mod v 52

theorem and_FLOAT_SIGN (v : Nat) : v &&& FLOAT_SIGN = (v / 2 ^ 31 % 2) * 2 ^ 31 :=
  and_shifted_mask v 1 31

theorem and_FLOAT_EXP (v : Nat) : v &&& FLOAT_EXP = (v / 2 ^ 23 % 256) * 2 ^ 23 :=
  and_shifted_mask v 8 23

theorem and_FLOAT_FRAC (v : Nat) : v &&& FLOAT_FRAC = v % 2 ^ 23 :=
  Nat.and_pow_two_sub_one_eq_mod v 23

/-! ## Classification: decision tables -/

/-- `ClassifyDouble` computes the spec's classifier at field widths (11, 52). -/
theorem ClassifyDouble_eq_classifySpec (v : Nat) :
    ClassifyDouble v = classifySpec 11 52 v := by
  unfold ClassifyDouble classifySpec
  simp only [and_DOUBLE_SIGN, and_DOUBLE_EXP, and_DOUBLE_FRAC]
  simp only [DOUBLE_ZERO, DOUBLE_EXP]
  generalize v / 2 ^ 63 % 2 = s
  generalize hE : v / 2 ^ 52 % 2048 = e
  generalize v % 2 ^ 52 = m
  have he : e < 2048 := by omega
  norm_num
  split_ifs <;> first | rfl | omega

/-- `ClassifyFloat` computes the spec's classifier at field widths (8, 23). -/
theorem ClassifyFloat_eq_classifySpec (v : Nat) :
    ClassifyFloat v = classifySpec 8 23 v := by
  unfold ClassifyFloat classifySpec
  simp only [and_FLOAT_SIGN, and_FLOAT_EXP, and_FLOAT_FRAC]
  simp only [FLOAT_ZERO, FLOAT_EXP]
  generalize v / 2 ^ 31 % 2 = s
  generalize hE : v / 2 ^ 23 % 256 = e
  generalize v % 2 ^ 23 = m
  have he : e < 256 := by omega
  norm_num
  split_ifs <;> first | rfl | omega

/-- C1: for every bit pattern `v`, with sign bit `s = v / 2^63 % 2`, exponent field
`e = v / 2^52 % 2048` and mantissa field `m = v % 2^52`, `ClassifyDouble` returns
normal if `0 < e < 2047`, quiet-NaN if `e = 2047` and `m ≠ 0` (whatever the sign and
the mantissa's top bit), denormal if `e = 0` and `m ≠ 0`, infinity if `e = 2047` and
`m = 0`, zero if `e = 0` and `m = 0`; outside NaN the positive variant is returned
for `s = 0` and the negative one for `s = 1`. -/
theorem ClassifyDouble_decision_table (v : Nat) :
    ClassifyDouble v =
      if 0 < v / 2 ^ 52 % 2048 ∧ v / 2 ^ 52 % 2048 < 2047 then
        (if v / 2 ^ 63 % 2 = 0 then PPC_FPCLASS_PN else PPC_FPCLASS_NN)
      else if v / 2 ^ 52 % 2048 = 2047 ∧ v % 2 ^ 52 ≠ 0 then
        PPC_FPCLASS_QNAN
      else if v / 2 ^ 52 % 2048 = 0 ∧ v % 2 ^ 52 ≠ 0 then
        (if v / 2 ^ 63 % 2 = 0 then PPC_FPCLASS_PD else PPC_FPCLASS_ND)
      else if v / 2 ^ 52 % 2048 = 2047 ∧ v % 2 ^ 52 = 0 then
        (if v / 2 ^ 63 % 2 = 0 then PPC_FPCLASS_PINF else PPC_FPCLASS_NINF)
      else
        (if v / 2 ^ 63 % 2 = 0 then PPC_FPCLASS_PZ else PPC_FPCLASS_NZ) := by
  unfold ClassifyDouble
  simp only [and_DOUBLE_SIGN, and_DOUBLE_EXP, and_DOUBLE_FRAC]
  simp only [DOUBLE_ZERO, DOUBLE_EXP]
  generalize v / 2 ^ 63 % 2 = s
  generalize hE : v / 2 ^ 52 % 2048 = e
  generalize v % 2 ^ 52 = m
  have he : e < 2048 := by omega
  norm_num
  split_ifs <;> first | rfl | omega

/-- C2: `ClassifyFloat` follows the decision table of `ClassifyDouble` with
`max_exponent = 255` on the fields `s = v / 2^31 % 2`, `e = v / 2^23 % 256`,
`m = v % 2^23`; `ClassifyFloat` and `ClassifyDouble` are the spec's generic classifier
`classifySpec` at field widths (8, 23) and (11, 52). -/
theorem ClassifyFloat_decision_table (v : Nat) :
    ClassifyFloat v = classifySpec 8 23 v ∧
    ClassifyDouble v = classifySpec 11 52 v ∧
    ClassifyFloat v =
      if 0 < v / 2 ^ 23 % 256 ∧ v / 2 ^ 23 % 256 < 255 then
        (if v / 2 ^ 31 % 2 = 0 then PPC_FPCLASS_PN else PPC_FPCLASS_NN)
      else if v / 2 ^ 23 % 256 = 255 ∧ v % 2 ^ 23 ≠ 0 then
        PPC_FPCLASS_QNAN
      else if v / 2 ^ 23 % 256 = 0 ∧ v % 2 ^ 23 ≠ 0 then
        (if v / 2 ^ 31 % 2 = 0 then PPC_FPCLASS_PD else PPC_FPCLASS_ND)
      else if v / 2 ^ 23 % 256 = 255 ∧ v % 2 ^ 23 = 0 then
        (if v / 2 ^ 31 % 2 = 0 then PPC_FPCLASS_PINF else PPC_FPCLASS_NINF)
      else
        (if v / 2 ^ 31 % 2 = 0 then PPC_FPCLASS_PZ else PPC_FPCLASS_NZ) := by
  refine ⟨ClassifyFloat_eq_classifySpec v, ClassifyDouble_eq_classifySpec v, ?_⟩
  unfold ClassifyFloat
  simp only [and_FLOAT_SIGN, and_FLOAT_EXP, and_FLOAT_FRAC]
  simp only [FLOAT_ZERO, FLOAT_EXP]
  generalize v / 2 ^ 31 % 2 = s
  generalize hE : v / 2 ^ 23 % 256 = e
  generalize v % 2 ^ 23 = m
  have he : e < 256 := by omega
  norm_num
  split_ifs <;> first | rfl | omega

/-! ## Classification: the classes that occur -/

/-- Every class is the class of one of the nine sample patterns. -/
theorem ClassifyDouble_surjective (c : FPClass) : ∃ v, v < 2 ^ 64 ∧ ClassifyDouble v = c := by
  cases c
  · exact ⟨0x7FF8000000000000, by norm_num, by decide⟩
  · exact ⟨0xFFF0000000000000, by norm_num, by decide⟩
  · exact ⟨0xBFF0000000000000, by norm_num, by decide⟩
  · exact ⟨0x8000000000000001, by norm_num, by decide⟩
  · exact ⟨0x8000000000000000, by norm_num, by decide⟩
  · exact ⟨0x0000000000000000, by norm_num, by decide⟩
  · exact ⟨0x0000000000000001, by norm_num, by decide⟩
  · exact ⟨0x3FF0000000000000, by norm_num, by decide⟩
  · exact ⟨0x7FF0000000000000, by norm_num, by decide⟩

/-- Every class is the class of some 32-bit pattern. -/
theorem ClassifyFloat_surjective (c : FPClass) : ∃ v, v < 2 ^ 32 ∧ ClassifyFloat v = c := by
  cases c
  · exact ⟨0x7FC00000, by norm_num, by decide⟩
  · exact ⟨0xFF800000, by norm_num, by decide⟩
  · exact ⟨0xBF800000, by norm_num, by decide⟩
  · exact ⟨0x80000001, by norm_num, by decide⟩
  · exact ⟨0x80000000, by norm_num, by decide⟩
  · exact ⟨0x00000000, by norm_num, by decide⟩
  · exact ⟨0x00000001, by norm_num, by decide⟩
  · exact ⟨0x3F800000, by norm_num, by decide⟩
  · exact ⟨0x7F800000, by norm_num, by decide⟩

/-- The set of classes `ClassifyDouble` returns on 64-bit patterns is all of `FPClass`. -/
theorem image_ClassifyDouble :
    Finset.image ClassifyDouble (Finset.range (2 ^ 64)) = Finset.univ := by
  rw [Finset.eq_univ_iff_forall]
  intro c
  obtain ⟨v, hv, hc⟩ := ClassifyDouble_surjective c
  exact Finset.mem_image.mpr ⟨v, Finset.mem_range.mpr hv, hc⟩

/-- The set of classes `ClassifyFloat` returns on 32-bit patterns is all of `FPClass`. -/
theorem image_ClassifyFloat :
    Finset.image ClassifyFloat (Finset.range (2 ^ 32)) = Finset.univ := by
  rw [Finset.eq_univ_iff_forall]
  intro c
  obtain ⟨v, hv, hc⟩ := ClassifyFloat_surjective c
  exact Finset.mem_image.mpr ⟨v, Finset.mem_range.mpr hv, hc⟩

/-- C3, as stated, fails: the nine sample patterns are 64-bit patterns on which
`ClassifyDouble` returns nine pairwise distinct classes, so the set of classes returned
over all 64-bit patterns does not have eight elements. -/
theorem ClassifyDouble_not_eight_classes :
    (∀ v ∈ doubleSamples, v < 2 ^ 64) ∧
    (doubleSamples.map ClassifyDouble).Nodup ∧
    (doubleSamples.map ClassifyDouble).length = 9 ∧
    ¬ (Finset.image ClassifyDouble (Finset.range (2 ^ 64))).card = 8 := by
  refine ⟨by decide, by decide, by decide, ?_⟩
  rw [image_ClassifyDouble]
  decide

/-- C3, amended: the set of classes returned by `ClassifyDouble` over all `2^64`
patterns, and by `ClassifyFloat` over all `2^32` patterns, has exactly nine elements,
every pattern has exactly one class, and each of the nine classes is the class of some
pattern: the nine classes partition the input space. -/
theorem Classify_nine_classes :
    (Finset.image ClassifyDouble (Finset.range (2 ^ 64))).card = 9 ∧
    (Finset.image ClassifyFloat (Finset.range (2 ^ 32))).card = 9 ∧
    (∀ v, ∃! c, ClassifyDouble v = c) ∧
    (∀ v, ∃! c, ClassifyFloat v = c) ∧
    (∀ c, ∃ v, v < 2 ^ 64 ∧ ClassifyDouble v = c) ∧
    (∀ c, ∃ v, v < 2 ^ 32 ∧ ClassifyFloat v = c) := by
  refine ⟨?_, ?_, ?_, ?_, ClassifyDouble_surjective, ClassifyFloat_surjective⟩
  · rw [image_ClassifyDouble]; decide
  · rw [image_ClassifyFloat]; decide
  · intro v; exact ⟨ClassifyDouble v, rfl, fun c h => h.symm⟩
  · intro v; exact ⟨ClassifyFloat v, rfl, fun c h => h.symm⟩

/-! ## Estimators: field extraction -/

theorem and_mantissa (v : Nat) : v &&& ((1 <<< 52) - 1) = v % 2 ^ 52 :=
  Nat.and_pow_two_sub_one_eq_mod v 52

theorem and_sign (v : Nat) : v &&& (1 <<< 63) = (v / 2 ^ 63 % 2) * 2 ^ 63 :=
  and_shifted_mask v 1 63

theorem and_exponent (v : Nat) : v &&& (0x7FF <<< 52) = (v / 2 ^ 52 % 2048) * 2 ^ 52 :=
  and_shifted_mask v 11 52

/-- On a non-negative `int64_t` the signed value is the pattern itself. -/
theorem toInt64_of_lt {x : Nat} (h : x < 2 ^ 63) : toInt64 x = (x : Int) := by
  unfold toInt64
  have h1 : x % 2 ^ 64 = x := Nat.mod_eq_of_lt (by omega)
  rw [h1, if_pos h]

/-- The signed comparison of two non-negative `int64_t` is the comparison of patterns. -/
theorem lt64_of_lt {x y : Nat} (hx : x < 2 ^ 63) (hy : y < 2 ^ 63) :
    lt64 x y = decide (x < y) := by
  unfold lt64
  rw [toInt64_of_lt hx, toInt64_of_lt hy]
  simp

/-! ## Estimators: special cases -/

/-- C4: `ApproximateReciprocalSquareRoot` maps `+0.0` to `+Infinity`, `-0.0` to
`-Infinity`, `+Infinity` to `+0.0`, and `-Infinity` to a quiet NaN (exponent field all
ones, top mantissa bit set). -/
theorem ApproximateReciprocalSquareRoot_zero_inf (fuel : Nat) :
    ApproximateReciprocalSquareRoot fuel 0x0000000000000000 = some 0x7FF0000000000000 ∧
    ApproximateReciprocalSquareRoot fuel 0x8000000000000000 = some 0xFFF0000000000000 ∧
    ApproximateReciprocalSquareRoot fuel 0x7FF0000000000000 = some 0x0000000000000000 ∧
    ∃ r, ApproximateReciprocalSquareRoot fuel 0xFFF0000000000000 = some r ∧
      r / 2 ^ 52 % 2048 = 2047 ∧ r / 2 ^ 51 % 2 = 1 := by
  refine ⟨by rfl, by rfl, by rfl, quiet_NaN, by rfl, by decide, by decide⟩

/-- C5: on every input with the sign bit set that is finite and nonzero (exponent field
below 2047, exponent and mantissa not both zero; negative denormals included),
`ApproximateReciprocalSquareRoot` returns a quiet NaN pattern (exponent field all ones,
top mantissa bit set). The first two guards of the function fail and the guard
`if (sign)` holds, so the function returns there, ahead of the denormal loop and of the
table lookup: the result is the same for every fuel, and is returned with no fuel. -/
theorem ApproximateReciprocalSquareRoot_negative (fuel v : Nat)
    (hs : v / 2 ^ 63 % 2 = 1) (he : v / 2 ^ 52 % 2048 < 2047)
    (hnz : ¬ (v / 2 ^ 52 % 2048 = 0 ∧ v % 2 ^ 52 = 0)) :
    (¬ (v &&& ((1 <<< 52) - 1) = 0 ∧ v &&& (0x7FF <<< 52) = 0)) ∧
    v &&& (0x7FF <<< 52) ≠ 0x7FF <<< 52 ∧
    v &&& (1 <<< 63) ≠ 0 ∧
    ApproximateReciprocalSquareRoot fuel v = some quiet_NaN ∧
    ApproximateReciprocalSquareRoot 0 v = some quiet_NaN ∧
    quiet_NaN / 2 ^ 52 % 2048 = 2047 ∧ quiet_NaN / 2 ^ 51 % 2 = 1 := by
  have g1 : ¬ (v &&& ((1 <<< 52) - 1) = 0 ∧ v &&& (0x7FF <<< 52) = 0) := by
    rw [and_mantissa, and_exponent]; omega
  have g2 : v &&& (0x7FF <<< 52) ≠ 0x7FF <<< 52 := by
    rw [and_exponent]; norm_num; omega
  have g3 : v &&& (1 <<< 63) ≠ 0 := by
    rw [and_sign]; omega
  have key : ∀ f, ApproximateReciprocalSquareRoot f v = some quiet_NaN := by
    intro f
    unfold ApproximateReciprocalSquareRoot
    simp only [if_neg g1, if_neg g2, if_pos g3]
  exact ⟨g1, g2, g3, key fuel, key 0, by decide, by decide⟩

/-- The negative least denormal `0x8000000000000001` is such an input. -/
theorem ApproximateReciprocalSquareRoot_negative_witness :
    (¬ (0x8000000000000001 &&& ((1 <<< 52) - 1) = 0 ∧
        0x8000000000000001 &&& (0x7FF <<< 52) = 0)) ∧
    0x8000000000000001 &&& (0x7FF <<< 52) ≠ 0x7FF <<< 52 ∧
    0x8000000000000001 &&& (1 <<< 63) ≠ 0 ∧
    ApproximateReciprocalSquareRoot 52 0x8000000000000001 = some quiet_NaN ∧
    ApproximateReciprocalSquareRoot 0 0x8000000000000001 = some quiet_NaN ∧
    quiet_NaN / 2 ^ 52 % 2048 = 2047 ∧ quiet_NaN / 2 ^ 51 % 2 = 1 :=
  ApproximateReciprocalSquareRoot_negative 52 0x8000000000000001
    (by decide) (by decide) (by decide)

/-- The sum `0.0 + v` of a NaN `v` is `v` with mantissa bit 51 set. -/
theorem addZero_nan (v : Nat) (he : v / 2 ^ 52 % 2048 = 2047) (hm : v % 2 ^ 52 ≠ 0) :
    addZero v = v ||| 0x0008000000000000 := by
  unfold addZero
  have g : v &&& (0x7FF <<< 52) = 0x7FF <<< 52 ∧ v &&& ((1 <<< 52) - 1) ≠ 0 := by
    rw [and_mantissa, and_exponent]; norm_num; omega
  rw [if_pos g]
  rfl

/-- C6: on every NaN input (exponent field 2047, mantissa nonzero), signalling or quiet,
of either sign, `ApproximateReciprocalSquareRoot` and `ApproximateReciprocal` both
return the input with mantissa bit 51 set (`v ||| 0x0008000000000000`) and every other
bit, sign and payload included, unchanged. -/
theorem Approximate_nan (fuel v : Nat)
    (he : v / 2 ^ 52 % 2048 = 2047) (hm : v % 2 ^ 52 ≠ 0) :
    ApproximateReciprocalSquareRoot fuel v = some (v ||| 0x0008000000000000) ∧
    ApproximateReciprocal v = some (v ||| 0x0008000000000000) := by
  have g1 : ¬ (v &&& ((1 <<< 52) - 1) = 0 ∧ v &&& (0x7FF <<< 52) = 0) := by
    rw [and_mantissa, and_exponent]; omega
  have g2 : v &&& (0x7FF <<< 52) = 0x7FF <<< 52 := by
    rw [and_exponent]; norm_num; omega
  have g3 : ¬ v &&& ((1 <<< 52) - 1) = 0 := by
    rw [and_mantissa]; exact hm
  constructor
  · unfold ApproximateReciprocalSquareRoot
    simp only [if_neg g1, if_pos g2, if_neg g3]
    rw [addZero_nan v he hm]
  · unfold ApproximateReciprocal
    simp only [if_neg g1, if_pos g2, if_neg g3]
    rw [addZero_nan v he hm]

/-- The negative signalling NaN `0xFFF0000000000001` is such an input. -/
theorem Approximate_nan_witness :
    ApproximateReciprocalSquareRoot 52 0xFFF0000000000001 =
      some (0xFFF0000000000001 ||| 0x0008000000000000) ∧
    ApproximateReciprocal 0xFFF0000000000001 =
      some (0xFFF0000000000001 ||| 0x0008000000000000) :=
  Approximate_nan 52 0xFFF0000000000001 (by decide) (by decide)

/-- C7: `ApproximateReciprocal` maps each zero to the infinity of the same sign and each
infinity to the zero of the same sign. -/
theorem ApproximateReciprocal_zero_inf :
    ApproximateReciprocal 0x0000000000000000 = some 0x7FF0000000000000 ∧
    ApproximateReciprocal 0x8000000000000000 = some 0xFFF0000000000000 ∧
    ApproximateReciprocal 0x7FF0000000000000 = some 0x0000000000000000 ∧
    ApproximateReciprocal 0xFFF0000000000000 = some 0x8000000000000000 := by
  refine ⟨by rfl, by rfl, by rfl, by rfl⟩

/-- The exponent field in place is a non-negative `int64_t`. -/
theorem exponent_lt (v : Nat) : v / 2 ^ 52 % 2048 * 2 ^ 52 < 2 ^ 63 := by
  have h : v / 2 ^ 52 % 2048 < 2048 := Nat.mod_lt _ (by norm_num)
  omega

/-- C8: on every nonzero input whose exponent field is below 895 (every denormal
included), whatever the mantissa, `ApproximateReciprocal` returns the largest finite
single-precision magnitude with the sign of the input: the input's sign bit OR
`0x47EFFFFFE0000000`. -/
theorem ApproximateReciprocal_small (v : Nat)
    (he : v / 2 ^ 52 % 2048 < 895)
    (hnz : ¬ (v / 2 ^ 52 % 2048 = 0 ∧ v % 2 ^ 52 = 0)) :
    ApproximateReciprocal v = some ((v &&& 0x8000000000000000) ||| 0x47EFFFFFE0000000) := by
  have g1 : ¬ (v &&& ((1 <<< 52) - 1) = 0 ∧ v &&& (0x7FF <<< 52) = 0) := by
    rw [and_mantissa, and_exponent]; omega
  have g2 : ¬ v &&& (0x7FF <<< 52) = 0x7FF <<< 52 := by
    rw [and_exponent]; norm_num; omega
  have g3 : lt64 (v &&& (0x7FF <<< 52)) (895 <<< 52) = true := by
    rw [and_exponent, lt64_of_lt (exponent_lt v) (by decide)]
    norm_num; omega
  unfold ApproximateReciprocal
  simp only [if_neg g1, if_neg g2, g3, if_true]
  unfold copysign float_max
  rw [Nat.lor_comm]
  rfl

/-- The negative least denormal `0x8000000000000001` is such an input. -/
theorem ApproximateReciprocal_small_witness :
    ApproximateReciprocal 0x8000000000000001 =
      some ((0x8000000000000001 &&& 0x8000000000000000) ||| 0x47EFFFFFE0000000) :=
  ApproximateReciprocal_small 0x8000000000000001 (by decide) (by decide)

/-- C9: on every finite input whose exponent field `e` satisfies `1149 ≤ e < 2047`,
whatever the mantissa, `ApproximateReciprocal` returns the zero with the sign of the
input: the input's sign bit, every other bit zero. -/
theorem ApproximateReciprocal_large (v : Nat)
    (he : 1149 ≤ v / 2 ^ 52 % 2048) (he2 : v / 2 ^ 52 % 2048 < 2047) :
    ApproximateReciprocal v = some (v &&& 0x8000000000000000) ∧
    v &&& 0x8000000000000000 = (v / 2 ^ 63 % 2) * 2 ^ 63 := by
  have g1 : ¬ (v &&& ((1 <<< 52) - 1) = 0 ∧ v &&& (0x7FF <<< 52) = 0) := by
    rw [and_mantissa, and_exponent]; omega
  have g2 : ¬ v &&& (0x7FF <<< 52) = 0x7FF <<< 52 := by
    rw [and_exponent]; norm_num; omega
  have g3 : lt64 (v &&& (0x7FF <<< 52)) (895 <<< 52) = false := by
    rw [and_exponent, lt64_of_lt (exponent_lt v) (by decide)]
    norm_num; omega
  have g4 : lt64 (v &&& (0x7FF <<< 52)) (1149 <<< 52) = false := by
    rw [and_exponent, lt64_of_lt (exponent_lt v) (by decide)]
    norm_num; omega
  refine ⟨?_, and_sign v⟩
  unfold ApproximateReciprocal
  simp only [if_neg g1, if_neg g2, g3, g4]
  simp [copysign]

/-- The pattern `0xC7D0000000000000` (`-2^126`, exponent field 1149) is such an input. -/
theorem ApproximateReciprocal_large_witness :
    ApproximateReciprocal 0xC7D0000000000000 = some (0xC7D0000000000000 &&& 0x8000000000000000) ∧
    0xC7D0000000000000 &&& 0x8000000000000000 = (0xC7D0000000000000 / 2 ^ 63 % 2) * 2 ^ 63 :=
  ApproximateReciprocal_large 0xC7D0000000000000 (by decide) (by decide)

/-! ## The denormal loop -/

/-- Reading back a wrapped integer changes it by a multiple of `2^64`, which a further
wrap forgets. -/
theorem ofInt64_toInt64_add (a b : Int) : ofInt64 (toInt64 (ofInt64 a) + b) = ofInt64 (a + b) := by
  unfold toInt64 ofInt64
  split_ifs <;> omega

theorem ofInt64_lt (a : Int) : ofInt64 a < 2 ^ 64 := by
  unfold ofInt64
  omega

theorem toInt64_one_shl_52 : toInt64 (1 <<< 52) = 2 ^ 52 := by decide

/-- Bit 52 of a pattern, as the source tests it. -/
theorem and_bit52 (m : Nat) : m &&& (1 <<< 52) = (m / 2 ^ 52 % 2) * 2 ^ 52 :=
  and_shifted_mask m 1 52

theorem shl64_one {m : Nat} (h : m < 2 ^ 63) : shl64 m 1 = 2 * m := by
  unfold shl64
  rw [Nat.shiftLeft_eq, Nat.mod_eq_of_lt (by omega)]
  omega

/-- The loop on a mantissa whose highest set bit is at position `52 - k`
(`2^(52-k) ≤ m < 2^(53-k)`, `1 ≤ k ≤ 52`): it runs the body exactly `k` times, so fails
with less fuel than `k`, and otherwise ends with the exponent lowered by `k` units of
`2^52` and the mantissa shifted left by `k`. -/
theorem normalizeLoop_eq (k : Nat) : ∀ (fuel exponent m : Nat), 1 ≤ k → k ≤ 52 →
    2 ^ (52 - k) ≤ m → m < 2 ^ (53 - k) →
    normalizeLoop fuel exponent m =
      if fuel < k then none
      else some (ofInt64 (toInt64 exponent - (k : Int) * 2 ^ 52), m * 2 ^ k) := by
  induction k with
  | zero => intro _ _ _ h; omega
  | succ k ih =>
    intro fuel exponent m _ hk hlo hhi
    have hm53 : m < 2 ^ 52 := by
      calc m < 2 ^ (53 - (k + 1)) := hhi
        _ ≤ 2 ^ 52 := Nat.pow_le_pow_right (by norm_num) (by omega)
    cases fuel with
    | zero => simp [normalizeLoop]
    | succ fuel =>
      rw [normalizeLoop]
      simp only [shl64_one (show m < 2 ^ 63 by omega), and_bit52]
      by_cases hk0 : k = 0
      · subst hk0
        have hlo1 : 2 ^ 51 ≤ m := by simpa using hlo
        have hb : ¬ (2 * m / 2 ^ 52 % 2 * 2 ^ 52 = 0) := by omega
        have hf : ¬ (fuel + 1 < 0 + 1) := by omega
        rw [if_neg hb, if_neg hf]
        unfold sub64
        rw [toInt64_one_shl_52]
        norm_num [Nat.mul_comm]
      · have e1 : 52 - k = (52 - (k + 1)) + 1 := by omega
        have e2 : 53 - k = (53 - (k + 1)) + 1 := by omega
        have hlo2 : 2 ^ (52 - k) ≤ 2 * m := by rw [e1, pow_succ]; omega
        have hhi2 : 2 * m < 2 ^ (53 - k) := by rw [e2, pow_succ]; omega
        have hhi3 : 2 * m < 2 ^ 52 := by
          calc 2 * m < 2 ^ (53 - k) := hhi2
            _ ≤ 2 ^ 52 := Nat.pow_le_pow_right (by norm_num) (by omega)
        have hb : 2 * m / 2 ^ 52 % 2 * 2 ^ 52 = 0 := by
          rw [Nat.div_eq_of_lt hhi3]; rfl
        rw [if_pos hb, ih fuel _ (2 * m) (by omega) (by omega) hlo2 hhi2]
        have hf : (fuel + 1 < k + 1) = (fuel < k) := by simp
        simp only [hf]
        split_ifs
        · rfl
        · have ex : ofInt64 (toInt64 (sub64 exponent (1 <<< 52)) - (k : Int) * 2 ^ 52)
              = ofInt64 (toInt64 exponent - ((k + 1 : Nat) : Int) * 2 ^ 52) := by
            unfold sub64
            rw [toInt64_one_shl_52, sub_eq_add_neg, ofInt64_toInt64_add]
            congr 1
            push_cast
            ring
          rw [ex, pow_succ]
          congr 2
          ring

/-- A nonzero 52-bit mantissa has its highest set bit at some position `52 - k` with
`1 ≤ k ≤ 52`. -/
theorem exists_shift (m : Nat) (h0 : 0 < m) (h : m < 2 ^ 52) :
    ∃ k, 1 ≤ k ∧ k ≤ 52 ∧ 2 ^ (52 - k) ≤ m ∧ m < 2 ^ (53 - k) := by
  have h1 := Nat.pow_log_le_self 2 (x := m) (by omega)
  have h2 := Nat.lt_pow_succ_log_self (b := 2) (by norm_num) m
  have hp : Nat.log 2 m < 52 := by
    have h3 : 2 ^ Nat.log 2 m < 2 ^ 52 := lt_of_le_of_lt h1 h
    exact (Nat.pow_lt_pow_iff_right (by norm_num)).mp h3
  refine ⟨52 - Nat.log 2 m, by omega, by omega, ?_, ?_⟩
  · have e : 52 - (52 - Nat.log 2 m) = Nat.log 2 m := by omega
    rw [e]; exact h1
  · have e : 53 - (52 - Nat.log 2 m) = (Nat.log 2 m).succ := by omega
    rw [e]; exact h2

/-- With fuel for 52 iterations the normalisation block returns on every nonzero
finite input, with a mantissa below `2^52`. -/
theorem normalize_total (fuel E M : Nat) (hf : 52 ≤ fuel) (hM : M < 2 ^ 52)
    (hnz : ¬ (M = 0 ∧ E = 0)) :
    ∃ e m, normalize fuel E M = some (e, m) ∧ m < 2 ^ 52 := by
  unfold normalize
  by_cases hE : E = 0
  · rw [if_pos hE]
    have hM0 : 0 < M := by omega
    obtain ⟨k, hk1, hk2, hlo, hhi⟩ := exists_shift M hM0 hM
    rw [normalizeLoop_eq k fuel E M hk1 hk2 hlo hhi, if_neg (by omega)]
    refine ⟨_, _, rfl, ?_⟩
    rw [and_mantissa]
    exact Nat.mod_lt _ (by norm_num)
  · rw [if_neg hE]
    exact ⟨E, M, rfl, hM⟩

/-! ## Table indices -/

/-- The `int` index `i = (int)(mantissa >> 37)` of a mantissa below `2^52` is the
quotient `mantissa / 2^37`. -/
theorem toInt32_shr64 (m : Nat) (hm : m < 2 ^ 52) :
    toInt32 (shr64 m 37) = ((m / 2 ^ 37 : Nat) : Int) := by
  unfold shr64
  rw [toInt64_of_lt (by omega), Int.shiftRight_eq_div_pow]
  have e : (m : Int) / ((2 ^ 37 : Nat) : Int) = ((m / 2 ^ 37 : Nat) : Int) := by norm_cast
  rw [e]
  have hq : m / 2 ^ 37 < 2 ^ 15 := by omega
  unfold ofInt64 toInt32
  split_ifs <;> omega

theorem index_bounds (m : Nat) (hm : m < 2 ^ 52) :
    0 ≤ toInt32 (shr64 m 37) ∧ toInt32 (shr64 m 37) ≤ 32767 := by
  rw [toInt32_shr64 m hm]
  omega

theorem frsqrteIndex_bounds (i : Int) (odd_exponent : Bool) (h0 : 0 ≤ i) (h1 : i ≤ 32767) :
    0 ≤ frsqrteIndex i odd_exponent ∧ frsqrteIndex i odd_exponent ≤ 31 := by
  unfold frsqrteIndex
  rw [Int.tdiv_eq_ediv h0 (by norm_num)]
  cases odd_exponent <;> simp <;> omega

theorem fresIndex_bounds (i : Int) (h0 : 0 ≤ i) (h1 : i ≤ 32767) :
    0 ≤ i.tdiv 1024 ∧ i.tdiv 1024 ≤ 31 := by
  rw [Int.tdiv_eq_ediv h0 (by norm_num)]
  omega

theorem tableAt_total (table : List Int) (index : Int) (h0 : 0 ≤ index)
    (h1 : index < table.length) : ∃ x, tableAt table index = some x := by
  unfold tableAt
  rw [if_pos h0]
  exact ⟨_, List.getElem?_eq_getElem (by omega)⟩

theorem frsqrteEntry_total (i : Int) (odd_exponent : Bool) (h0 : 0 ≤ i) (h1 : i ≤ 32767) :
    ∃ x, frsqrteEntry i odd_exponent = some x := by
  obtain ⟨hi0, hi1⟩ := frsqrteIndex_bounds i odd_exponent h0 h1
  obtain ⟨b, hb⟩ := tableAt_total frsqrte_expected_base (frsqrteIndex i odd_exponent) hi0
    (by simp [frsqrte_expected_base]; omega)
  obtain ⟨d, hd⟩ := tableAt_total frsqrte_expected_dec (frsqrteIndex i odd_exponent) hi0
    (by simp [frsqrte_expected_dec]; omega)
  unfold frsqrteEntry
  simp only [hb, hd]
  exact ⟨_, rfl⟩

theorem fresEntry_total (i : Int) (h0 : 0 ≤ i) (h1 : i ≤ 32767) :
    ∃ x, fresEntry i = some x := by
  obtain ⟨hi0, hi1⟩ := fresIndex_bounds i h0 h1
  obtain ⟨b, hb⟩ := tableAt_total fres_expected_base (i.tdiv 1024) hi0
    (by simp [fres_expected_base]; omega)
  obtain ⟨d, hd⟩ := tableAt_total fres_expected_dec (i.tdiv 1024) hi0
    (by simp [fres_expected_dec]; omega)
  unfold fresEntry
  simp only [hb, hd]
  exact ⟨_, rfl⟩

/-! ## Totality -/

theorem shl64_lt (x k : Nat) : shl64 x k < 2 ^ 64 :=
  Nat.mod_lt _ (by norm_num)

theorem copysign_lt (x y : Nat) : copysign x y < 2 ^ 64 := by
  unfold copysign
  exact Nat.or_lt_two_pow (lt_of_le_of_lt Nat.and_le_right (by decide))
    (lt_of_le_of_lt Nat.and_le_right (by decide))

theorem addZero_lt (x : Nat) (h : x < 2 ^ 64) : addZero x < 2 ^ 64 := by
  unfold addZero
  split_ifs
  · exact Nat.or_lt_two_pow h (by decide)
  · norm_num
  · exact h

theorem frsqrteTablePath_total (fuel sign E M : Nat) (hf : 52 ≤ fuel) (hs : sign < 2 ^ 64)
    (hM : M < 2 ^ 52) (hnz : ¬ (M = 0 ∧ E = 0)) :
    ∃ r, frsqrteTablePath fuel sign E M = some r ∧ r < 2 ^ 64 := by
  obtain ⟨e, m, hn, hm⟩ := normalize_total fuel E M hf hM hnz
  obtain ⟨hi0, hi1⟩ := index_bounds m hm
  obtain ⟨x, hx⟩ := frsqrteEntry_total (toInt32 (shr64 m 37)) (oddExponent e) hi0 hi1
  unfold frsqrteTablePath
  simp only [hn, hx]
  refine ⟨_, rfl, ?_⟩
  refine Nat.or_lt_two_pow (Nat.or_lt_two_pow hs ?_) (shl64_lt _ _)
  unfold frsqrteExponent
  exact lt_of_le_of_lt Nat.and_le_right (by decide)

theorem fresTablePath_total (sign E M : Nat) (hs : sign < 2 ^ 64) (hM : M < 2 ^ 52) :
    ∃ r, fresTablePath sign E M = some r ∧ r < 2 ^ 64 := by
  obtain ⟨hi0, hi1⟩ := index_bounds M hM
  obtain ⟨x, hx⟩ := fresEntry_total (toInt32 (shr64 M 37)) hi0 hi1
  unfold fresTablePath
  simp only [hx]
  refine ⟨_, rfl, ?_⟩
  exact Nat.or_lt_two_pow (Nat.or_lt_two_pow hs (ofInt64_lt _)) (shl64_lt _ _)

/-- C10: both estimators are total. For every 64-bit pattern `v`,
`ApproximateReciprocalSquareRoot` (with fuel for the 52 iterations the denormal loop
can need) and `ApproximateReciprocal` return a 64-bit pattern; a read outside a table
would make the result `none`. All four tables have 32 entries. On every nonzero input
the normalisation block of the square-root estimate returns, its index
`i = (int)(mantissa >> 37)` lies in `0..32767` and the row `i / 2048 + (16 or 0)` in
`0..31`; the row `i / 1024` of the reciprocal estimate lies in `0..31`. -/
theorem Approximate_total (fuel v : Nat) (hv : v < 2 ^ 64) (hfuel : 52 ≤ fuel) :
    (∃ r, ApproximateReciprocalSquareRoot fuel v = some r ∧ r < 2 ^ 64) ∧
    (∃ r, ApproximateReciprocal v = some r ∧ r < 2 ^ 64) ∧
    frsqrte_expected_base.length = 32 ∧ frsqrte_expected_dec.length = 32 ∧
    fres_expected_base.length = 32 ∧ fres_expected_dec.length = 32 ∧
    (¬ (v &&& ((1 <<< 52) - 1) = 0 ∧ v &&& (0x7FF <<< 52) = 0) →
      ∃ exponent mantissa,
        normalize fuel (v &&& (0x7FF <<< 52)) (v &&& ((1 <<< 52) - 1))
          = some (exponent, mantissa) ∧
        0 ≤ toInt32 (shr64 mantissa 37) ∧ toInt32 (shr64 mantissa 37) ≤ 32767 ∧
        0 ≤ frsqrteIndex (toInt32 (shr64 mantissa 37)) (oddExponent exponent) ∧
        frsqrteIndex (toInt32 (shr64 mantissa 37)) (oddExponent exponent) ≤ 31) ∧
    0 ≤ (toInt32 (shr64 (v &&& ((1 <<< 52) - 1)) 37)).tdiv 1024 ∧
    (toInt32 (shr64 (v &&& ((1 <<< 52) - 1)) 37)).tdiv 1024 ≤ 31 := by
  have hM : v &&& ((1 <<< 52) - 1) < 2 ^ 52 := by
    rw [and_mantissa]; exact Nat.mod_lt _ (by norm_num)
  have hS : v &&& (1 <<< 63) < 2 ^ 64 := lt_of_le_of_lt Nat.and_le_left hv
  refine ⟨?_, ?_, rfl, rfl, rfl, rfl, ?_, ?_⟩
  · unfold ApproximateReciprocalSquareRoot
    simp only []
    split_ifs with h1 h2 h3 h4 h5 h6
    · exact ⟨_, rfl, by decide⟩
    · exact ⟨_, rfl, by decide⟩
    · exact ⟨_, rfl, by decide⟩
    · exact ⟨_, rfl, by decide⟩
    · exact ⟨_, rfl, addZero_lt v hv⟩
    · exact ⟨_, rfl, by decide⟩
    · exact frsqrteTablePath_total fuel _ _ _ hfuel hS hM h1
  · unfold ApproximateReciprocal
    simp only []
    split_ifs with h1 h2 h3 h4 h5
    · exact ⟨_, rfl, copysign_lt _ _⟩
    · exact ⟨_, rfl, copysign_lt _ _⟩
    · exact ⟨_, rfl, addZero_lt v hv⟩
    · exact ⟨_, rfl, copysign_lt _ _⟩
    · exact ⟨_, rfl, copysign_lt _ _⟩
    · exact fresTablePath_total _ _ _ hS hM
  · intro hnz
    obtain ⟨e, m, hn, hm⟩ := normalize_total fuel _ _ hfuel hM hnz
    obtain ⟨hi0, hi1⟩ := index_bounds m hm
    obtain ⟨hr0, hr1⟩ := frsqrteIndex_bounds _ (oddExponent e) hi0 hi1
    exact ⟨e, m, hn, hi0, hi1, hr0, hr1⟩
  · obtain ⟨hi0, hi1⟩ := index_bounds _ hM
    exact fresIndex_bounds _ hi0 hi1

/-- The least denormal `0x0000000000000001`, which needs all 52 iterations. -/
theorem Approximate_total_witness :
    (∃ r, ApproximateReciprocalSquareRoot 52 1 = some r ∧ r < 2 ^ 64) ∧
    (∃ r, ApproximateReciprocal 1 = some r ∧ r < 2 ^ 64) ∧
    frsqrte_expected_base.length = 32 ∧ frsqrte_expected_dec.length = 32 ∧
    fres_expected_base.length = 32 ∧ fres_expected_dec.length = 32 ∧
    (¬ (1 &&& ((1 <<< 52) - 1) = 0 ∧ 1 &&& (0x7FF <<< 52) = 0) →
      ∃ exponent mantissa,
        normalize 52 (1 &&& (0x7FF <<< 52)) (1 &&& ((1 <<< 52) - 1))
          = some (exponent, mantissa) ∧
        0 ≤ toInt32 (shr64 mantissa 37) ∧ toInt32 (shr64 mantissa 37) ≤ 32767 ∧
        0 ≤ frsqrteIndex (toInt32 (shr64 mantissa 37)) (oddExponent exponent) ∧
        frsqrteIndex (toInt32 (shr64 mantissa 37)) (oddExponent exponent) ≤ 31) ∧
    0 ≤ (toInt32 (shr64 (1 &&& ((1 <<< 52) - 1)) 37)).tdiv 1024 ∧
    (toInt32 (shr64 (1 &&& ((1 <<< 52) - 1)) 37)).tdiv 1024 ≤ 31 :=
  Approximate_total 52 1 (by decide) (by decide)

/-! ## The normalisation block on a denormal -/

theorem toInt64_ofInt64 (a : Int) (h1 : -2 ^ 63 ≤ a) (h2 : a < 2 ^ 63) :
    toInt64 (ofInt64 a) = a := by
  unfold toInt64 ofInt64
  split_ifs <;> omega

theorem ofInt64_natCast (n : Nat) (h : n < 2 ^ 64) : ofInt64 (n : Int) = n := by
  unfold ofInt64
  omega

/-- The highest set bit of a nonzero 52-bit mantissa is at position `Nat.log 2 m`,
below 52. -/
theorem log_bounds (m : Nat) (h0 : 0 < m) (h : m < 2 ^ 52) :
    Nat.log 2 m < 52 ∧ 2 ^ Nat.log 2 m ≤ m ∧ m < 2 ^ (Nat.log 2 m + 1) := by
  have h1 := Nat.pow_log_le_self 2 (x := m) (by omega)
  have h2 := Nat.lt_pow_succ_log_self (b := 2) (by norm_num) m
  have h3 : 2 ^ Nat.log 2 m < 2 ^ 52 := lt_of_le_of_lt h1 h
  exact ⟨(Nat.pow_lt_pow_iff_right (by norm_num)).mp h3, h1, h2⟩

/-- The loop on a nonzero 52-bit mantissa with highest set bit at position `p`: it fails
with less fuel than `52 - p` and otherwise ends after `52 - p` iterations. -/
theorem normalizeLoop_log (fuel exponent m : Nat) (h0 : 0 < m) (h : m < 2 ^ 52) :
    normalizeLoop fuel exponent m =
      if fuel < 52 - Nat.log 2 m then none
      else some (ofInt64 (toInt64 exponent - ((52 - Nat.log 2 m : Nat) : Int) * 2 ^ 52),
        m * 2 ^ (52 - Nat.log 2 m)) := by
  obtain ⟨hp, hlo, hhi⟩ := log_bounds m h0 h
  apply normalizeLoop_eq (52 - Nat.log 2 m) fuel exponent m (by omega) (by omega)
  · have e : 52 - (52 - Nat.log 2 m) = Nat.log 2 m := by omega
    rw [e]; exact hlo
  · have e : 53 - (52 - Nat.log 2 m) = Nat.log 2 m + 1 := by omega
    rw [e]; exact hhi

/-- The normalisation block on a denormal with mantissa `m`, highest set bit at
position `p`: with fuel for `52 - p` iterations it returns the exponent `p - 51` (a
multiple of `2^52`, as a 64-bit pattern) and the mantissa `m * 2^(52-p)` without its
bit 52. -/
theorem normalize_denormal (fuel m : Nat) (h0 : 0 < m) (h : m < 2 ^ 52) :
    normalize fuel 0 m =
      if fuel < 52 - Nat.log 2 m then none
      else some (ofInt64 (((Nat.log 2 m : Int) - 51) * 2 ^ 52),
        m * 2 ^ (52 - Nat.log 2 m) % 2 ^ 52) := by
  obtain ⟨hp, hlo, hhi⟩ := log_bounds m h0 h
  unfold normalize
  rw [if_pos rfl, normalizeLoop_log fuel 0 m h0 h]
  split_ifs with hf
  · rfl
  · simp only [and_mantissa]
    unfold add64
    rw [toInt64_one_shl_52, ofInt64_toInt64_add]
    have e0 : toInt64 0 = 0 := by decide
    rw [e0]
    congr 3
    push_cast [Nat.cast_sub (le_of_lt hp)]
    ring

/-- The normalisation block on the fields of a finite nonzero pattern returns the
normalised exponent and mantissa; fuel is needed for a denormal only. -/
theorem normalize_eq (fuel v : Nat) (hf : 52 ≤ fuel ∨ v / 2 ^ 52 % 2048 ≠ 0)
    (he : v / 2 ^ 52 % 2048 < 2047)
    (hnz : ¬ (v / 2 ^ 52 % 2048 = 0 ∧ v % 2 ^ 52 = 0)) :
    normalize fuel (v &&& (0x7FF <<< 52)) (v &&& ((1 <<< 52) - 1)) =
      some (ofInt64 (normalisedExponent v * 2 ^ 52), normalisedMantissa v) := by
  rw [and_exponent, and_mantissa]
  unfold normalisedExponent normalisedMantissa
  by_cases h0 : v / 2 ^ 52 % 2048 = 0
  · have hm0 : 0 < v % 2 ^ 52 := by omega
    have hm : v % 2 ^ 52 < 2 ^ 52 := Nat.mod_lt _ (by norm_num)
    have hf2 : 52 ≤ fuel := hf.resolve_right (fun hne => hne h0)
    rw [if_pos h0, if_pos h0, h0, Nat.zero_mul, normalize_denormal fuel _ hm0 hm,
      if_neg (by omega)]
  · rw [if_neg h0, if_neg h0]
    unfold normalize
    have hne : ¬ (v / 2 ^ 52 % 2048 * 2 ^ 52 = 0) := by omega
    rw [if_neg hne]
    congr 2
    rw [← Nat.cast_ofNat (R := Int), ← Nat.cast_pow, ← Nat.cast_mul, ofInt64_natCast]
    have := exponent_lt v
    omega

theorem normalisedExponent_bounds (v : Nat) (he : v / 2 ^ 52 % 2048 < 2047)
    (hnz : ¬ (v / 2 ^ 52 % 2048 = 0 ∧ v % 2 ^ 52 = 0)) :
    -51 ≤ normalisedExponent v ∧ normalisedExponent v ≤ 2046 ∧
    (v / 2 ^ 52 % 2048 = 0 → normalisedExponent v ≤ 0) ∧
    (v / 2 ^ 52 % 2048 ≠ 0 → 1 ≤ normalisedExponent v) := by
  unfold normalisedExponent
  by_cases h0 : v / 2 ^ 52 % 2048 = 0
  · have hm0 : 0 < v % 2 ^ 52 := by omega
    have hm : v % 2 ^ 52 < 2 ^ 52 := Nat.mod_lt _ (by norm_num)
    obtain ⟨hp, -, -⟩ := log_bounds _ hm0 hm
    simp only [if_pos h0]
    omega
  · simp only [if_neg h0]
    omega

theorem normalisedMantissa_lt (v : Nat) : normalisedMantissa v < 2 ^ 52 := by
  unfold normalisedMantissa
  split_ifs <;> exact Nat.mod_lt _ (by norm_num)

/-! ## Exponent and parity of the square-root estimate -/

/-- The flag `odd_exponent` on a normalised exponent of `en` units is set exactly when
`en` is even. -/
theorem oddExponent_eq (en : Int) :
    oddExponent (ofInt64 (en * 2 ^ 52)) = decide (en % 2 = 0) := by
  unfold oddExponent
  rw [and_bit52]
  unfold ofInt64
  congr 1
  apply propext
  constructor <;> intro h <;> omega

/-- The result exponent on a normalised exponent of `en` units is `(3068 - en) / 2`
units, rounded down. -/
theorem frsqrteExponent_eq (en : Int) (h1 : -51 ≤ en) (h2 : en ≤ 2046) :
    frsqrteExponent (ofInt64 (en * 2 ^ 52)) = ((3068 - en) / 2).toNat * 2 ^ 52 := by
  unfold frsqrteExponent sub64 div64
  have c1 : toInt64 (0x3FE <<< 52) = 1022 * 2 ^ 52 := by decide
  have c2 : toInt64 (0x3FF <<< 52) = 1023 * 2 ^ 52 := by decide
  have c3 : toInt64 2 = 2 := by decide
  rw [c1, c2, c3, toInt64_ofInt64 (en * 2 ^ 52) (by omega) (by omega),
    toInt64_ofInt64 (en * 2 ^ 52 - 1022 * 2 ^ 52) (by omega) (by omega)]
  have c4 : (en * 2 ^ 52 - 1022 * 2 ^ 52 : Int) = ((en - 1022) * 2 ^ 51) * 2 := by ring
  rw [c4, Int.mul_tdiv_cancel _ (by norm_num),
    toInt64_ofInt64 ((en - 1022) * 2 ^ 51) (by omega) (by omega), and_exponent]
  unfold ofInt64
  omega

/-! ## Table entries -/

theorem tableAt_natCast (table : List Int) (r : Nat) (h : r < table.length) :
    tableAt table (r : Int) = some (table.getD r 0) := by
  unfold tableAt
  rw [if_pos (Int.ofNat_nonneg r), Int.toNat_ofNat, List.getD_eq_getElem?_getD,
    List.getElem?_eq_getElem h]
  rfl

/-- Row by row: the decrements of the square-root tables are non-negative, the term at
the last offset of the row is non-negative and the base fits 26 bits. -/
theorem frsqrte_rows : ∀ r, r < 32 →
    0 ≤ frsqrte_expected_dec.getD r 0 ∧ 0 ≤ frsqrteTerm r 2047 ∧
    frsqrte_expected_base.getD r 0 < 2 ^ 26 := by
  decide

/-- Row by row: the decrements of the reciprocal tables are non-negative, the term at
the last offset of the row is non-negative and the base fits 23 bits. -/
theorem fres_rows : ∀ r, r < 32 →
    0 ≤ fres_expected_dec.getD r 0 ∧ 0 ≤ fresTerm r 1023 ∧
    fres_expected_base.getD r 0 < 2 ^ 23 := by
  decide

theorem frsqrteTerm_range (row offset : Nat) (hr : row < 32) (ho : offset < 2048) :
    0 ≤ frsqrteTerm row offset ∧ frsqrteTerm row offset < 2 ^ 26 := by
  obtain ⟨hd, hlast, hb⟩ := frsqrte_rows row hr
  unfold frsqrteTerm at *
  have ho2 : (offset : Int) ≤ 2047 := by omega
  have ho0 : (0 : Int) ≤ offset := Int.ofNat_nonneg _
  have h1 : frsqrte_expected_dec.getD row 0 * (offset : Int)
      ≤ frsqrte_expected_dec.getD row 0 * 2047 := mul_le_mul_of_nonneg_left ho2 hd
  have h2 : 0 ≤ frsqrte_expected_dec.getD row 0 * (offset : Int) := mul_nonneg hd ho0
  constructor
  · push_cast at hlast; linarith
  · linarith

theorem fresTerm_range (row offset : Nat) (hr : row < 32) (ho : offset < 1024) :
    0 ≤ fresTerm row offset ∧ fresTerm row offset < 2 ^ 23 := by
  obtain ⟨hd, hlast, hb⟩ := fres_rows row hr
  unfold fresTerm at *
  have ho2 : (offset : Int) ≤ 1023 := by omega
  have ho0 : (0 : Int) ≤ offset := Int.ofNat_nonneg _
  have h1 : fres_expected_dec.getD row 0 * (offset : Int)
      ≤ fres_expected_dec.getD row 0 * 1023 := mul_le_mul_of_nonneg_left ho2 hd
  have h2 : 0 ≤ fres_expected_dec.getD row 0 * (offset : Int) := mul_nonneg hd ho0
  have h3 : (fres_expected_dec.getD row 0 * (offset : Int) + 1) / 2
      ≤ (fres_expected_dec.getD row 0 * 1023 + 1) / 2 :=
    Int.ediv_le_ediv (by norm_num) (by linarith)
  have h4 : 0 ≤ (fres_expected_dec.getD row 0 * (offset : Int) + 1) / 2 :=
    Int.ediv_nonneg (by linarith) (by norm_num)
  constructor
  · push_cast at hlast; linarith
  · linarith

/-- The term the square-root estimate reads for the index `i` and the flag
`odd_exponent`. -/
theorem frsqrteEntry_eq (i : Nat) (hi : i < 32768) (odd_exponent : Bool) :
    frsqrteEntry (i : Int) odd_exponent =
      some (frsqrteTerm (i / 2048 + (if odd_exponent then 16 else 0)) (i % 2048)) := by
  have hidx : frsqrteIndex (i : Int) odd_exponent
      = ((i / 2048 + (if odd_exponent then 16 else 0) : Nat) : Int) := by
    unfold frsqrteIndex
    rw [Int.tdiv_eq_ediv (Int.ofNat_nonneg i) (by norm_num)]
    cases odd_exponent <;> simp
  have hrow : i / 2048 + (if odd_exponent then 16 else 0) < 32 := by
    cases odd_exponent <;> simp <;> omega
  unfold frsqrteEntry
  simp only [hidx]
  rw [tableAt_natCast _ _ (by simpa [frsqrte_expected_base] using hrow),
    tableAt_natCast _ _ (by simpa [frsqrte_expected_dec] using hrow)]
  simp only [Int.tmod_eq_emod (Int.ofNat_nonneg i) (by norm_num : (0 : Int) ≤ 2048)]
  unfold frsqrteTerm
  norm_cast

/-- The term the reciprocal estimate reads for the index `i`. -/
theorem fresEntry_eq (i : Nat) (hi : i < 32768) :
    fresEntry (i : Int) = some (fresTerm (i / 1024) (i % 1024)) := by
  have hidx : (i : Int).tdiv 1024 = ((i / 1024 : Nat) : Int) := by
    rw [Int.tdiv_eq_ediv (Int.ofNat_nonneg i) (by norm_num)]
    norm_cast
  have hrow : i / 1024 < 32 := by omega
  obtain ⟨hd, -, -⟩ := fres_rows _ hrow
  have hmod : (i : Int).tmod 1024 = ((i % 1024 : Nat) : Int) := by
    rw [Int.tmod_eq_emod (Int.ofNat_nonneg i) (by norm_num)]
    norm_cast
  unfold fresEntry
  simp only [hidx, hmod]
  rw [tableAt_natCast _ _ (by simpa [fres_expected_base] using hrow),
    tableAt_natCast _ _ (by simpa [fres_expected_dec] using hrow)]
  simp only []
  rw [Int.tdiv_eq_ediv (by have := mul_nonneg hd (Int.ofNat_nonneg (i % 1024)); linarith)
    (by norm_num)]
  rfl

/-! ## Assembling the result -/

/-- Fields that do not overlap are assembled by `|||` as by `+`. -/
theorem fields_or_eq_add (a b c : Nat) (hb : b < 2 ^ 11) (hc : c < 2 ^ 52) :
    (a * 2 ^ 63) ||| (b * 2 ^ 52) ||| c = a * 2 ^ 63 + b * 2 ^ 52 + c := by
  have h1 : b * 2 ^ 52 < 2 ^ 63 := by omega
  have e1 : a * 2 ^ 63 ||| b * 2 ^ 52 = a * 2 ^ 63 + b * 2 ^ 52 := by
    rw [Nat.mul_comm a, ← Nat.mul_add_lt_is_or h1]
  have e2 : a * 2 ^ 63 + b * 2 ^ 52 = 2 ^ 52 * (a * 2 ^ 11 + b) := by ring
  rw [e1, e2, ← Nat.mul_add_lt_is_or hc]

theorem shl64_ofInt64_26 (t : Int) (h0 : 0 ≤ t) (h1 : t < 2 ^ 26) :
    shl64 (ofInt64 t) 26 = t.toNat * 2 ^ 26 := by
  unfold shl64 ofInt64
  rw [Nat.shiftLeft_eq]
  omega

theorem shl64_ofInt64_29 (t : Int) (h0 : 0 ≤ t) (h1 : t < 2 ^ 23) :
    shl64 (ofInt64 t) 29 = t.toNat * 2 ^ 29 := by
  unfold shl64 ofInt64
  rw [Nat.shiftLeft_eq]
  omega

/-- The table path of the reciprocal estimate, field by field: the sign of the input,
the exponent `2045 - e`, and the table term shifted left by 29 bits. -/
theorem fres_result (v : Nat) (he1 : 895 ≤ v / 2 ^ 52 % 2048) (he2 : v / 2 ^ 52 % 2048 < 1149) :
    ApproximateReciprocal v =
      some ((v / 2 ^ 63 % 2) * 2 ^ 63 + (2045 - v / 2 ^ 52 % 2048) * 2 ^ 52 +
        (fresTerm (v % 2 ^ 52 / 2 ^ 47) (v % 2 ^ 52 / 2 ^ 37 % 1024)).toNat * 2 ^ 29) := by
  have g1 : ¬ (v &&& ((1 <<< 52) - 1) = 0 ∧ v &&& (0x7FF <<< 52) = 0) := by
    rw [and_mantissa, and_exponent]; omega
  have g2 : ¬ v &&& (0x7FF <<< 52) = 0x7FF <<< 52 := by
    rw [and_exponent]; norm_num; omega
  have g3 : lt64 (v &&& (0x7FF <<< 52)) (895 <<< 52) = false := by
    rw [and_exponent, lt64_of_lt (exponent_lt v) (by decide)]
    norm_num; omega
  have g4 : lt64 (v &&& (0x7FF <<< 52)) (1149 <<< 52) = true := by
    rw [and_exponent, lt64_of_lt (exponent_lt v) (by decide)]
    norm_num; omega
  have hm : v % 2 ^ 52 < 2 ^ 52 := Nat.mod_lt _ (by norm_num)
  have hi : v % 2 ^ 52 / 2 ^ 37 < 32768 := by omega
  have hrow : v % 2 ^ 52 / 2 ^ 37 / 1024 = v % 2 ^ 52 / 2 ^ 47 := by omega
  obtain ⟨ht0, ht1⟩ := fresTerm_range (v % 2 ^ 52 / 2 ^ 47) (v % 2 ^ 52 / 2 ^ 37 % 1024)
    (by omega) (Nat.mod_lt _ (by norm_num))
  have hexp : sub64 (0x7FD <<< 52) (v / 2 ^ 52 % 2048 * 2 ^ 52)
      = (2045 - v / 2 ^ 52 % 2048) * 2 ^ 52 := by
    unfold sub64
    have c1 : toInt64 (0x7FD <<< 52) = 2045 * 2 ^ 52 := by decide
    rw [c1, toInt64_of_lt (exponent_lt v)]
    unfold ofInt64
    omega
  unfold ApproximateReciprocal
  simp only [if_neg g1, if_neg g2, g3, g4]
  unfold fresTablePath
  simp only [and_mantissa, and_exponent, and_sign, toInt32_shr64 _ hm, fresEntry_eq _ hi,
    hrow, hexp, shl64_ofInt64_29 _ ht0 ht1]
  rw [fields_or_eq_add _ _ _ (by omega) (by omega)]
  simp

/-- The table path of the square-root estimate, field by field, on a positive finite
nonzero input with normalised exponent `en` and normalised mantissa `mn`: sign 0, the
exponent `(3068 - en) / 2`, and the table term for the index `i = mn / 2^37`, read in
rows 16 to 31 when `en` is even and in rows 0 to 15 when it is odd, shifted left by 26
bits. -/
theorem frsqrte_result (fuel v : Nat) (hf : 52 ≤ fuel ∨ v / 2 ^ 52 % 2048 ≠ 0)
    (hs : v / 2 ^ 63 % 2 = 0)
    (he : v / 2 ^ 52 % 2048 < 2047) (hnz : ¬ (v / 2 ^ 52 % 2048 = 0 ∧ v % 2 ^ 52 = 0)) :
    ApproximateReciprocalSquareRoot fuel v =
      some (((3068 - normalisedExponent v) / 2).toNat * 2 ^ 52 +
        (frsqrteTerm (normalisedMantissa v / 2 ^ 37 / 2048 +
            (if normalisedExponent v % 2 = 0 then 16 else 0))
          (normalisedMantissa v / 2 ^ 37 % 2048)).toNat * 2 ^ 26) := by
  have g1 : ¬ (v &&& ((1 <<< 52) - 1) = 0 ∧ v &&& (0x7FF <<< 52) = 0) := by
    rw [and_mantissa, and_exponent]; omega
  have g2 : ¬ v &&& (0x7FF <<< 52) = 0x7FF <<< 52 := by
    rw [and_exponent]; norm_num; omega
  have g3 : ¬ v &&& (1 <<< 63) ≠ 0 := by
    rw [and_sign]; omega
  have hsign : v &&& (1 <<< 63) = 0 := by
    rw [and_sign]; omega
  obtain ⟨hn1, hn2, -, -⟩ := normalisedExponent_bounds v he hnz
  have hm := normalisedMantissa_lt v
  have hi : normalisedMantissa v / 2 ^ 37 < 32768 := by omega
  have hodd : (decide (normalisedExponent v % 2 = 0) = true) = (normalisedExponent v % 2 = 0) := by
    simp
  have hrow : normalisedMantissa v / 2 ^ 37 / 2048 +
      (if normalisedExponent v % 2 = 0 then 16 else 0) < 32 := by
    split_ifs <;> omega
  obtain ⟨ht0, ht1⟩ := frsqrteTerm_range _ (normalisedMantissa v / 2 ^ 37 % 2048) hrow
    (Nat.mod_lt _ (by norm_num))
  have hE : ((3068 - normalisedExponent v) / 2).toNat < 2 ^ 11 := by omega
  unfold ApproximateReciprocalSquareRoot
  simp only [if_neg g1, if_neg g2, if_neg g3]
  unfold frsqrteTablePath
  rw [normalize_eq fuel v hf he hnz]
  simp only [hsign, oddExponent_eq, frsqrteExponent_eq _ hn1 hn2, toInt32_shr64 _ hm,
    frsqrteEntry_eq _ hi, hodd, shl64_ofInt64_26 _ ht0 ht1, Nat.zero_or]
  have h0 := fields_or_eq_add 0 ((3068 - normalisedExponent v) / 2).toNat
    ((frsqrteTerm (normalisedMantissa v / 2 ^ 37 / 2048 +
            (if normalisedExponent v % 2 = 0 then 16 else 0))
          (normalisedMantissa v / 2 ^ 37 % 2048)).toNat * 2 ^ 26) hE (by omega)
  simp only [Nat.zero_mul, Nat.zero_or, Nat.zero_add] at h0
  rw [h0]

/-! ## Reduced precision, table lookup and exponent of the results -/

/-- C11: on every input that reaches the table path, the low 29 bits of the result of
`ApproximateReciprocal` are zero and the low 26 bits of the result of
`ApproximateReciprocalSquareRoot` are zero. `ApproximateReciprocal` of `4.0`
(`0x4010000000000000`) is `0x3FCFFF0000000000`, whose low 29 bits are zero and which is
not `0x3FD0000000000000`, the pattern of `0.25`. -/
theorem table_path_low_bits_zero (fuel v : Nat) :
    (895 ≤ v / 2 ^ 52 % 2048 → v / 2 ^ 52 % 2048 < 1149 →
      ∃ r, ApproximateReciprocal v = some r ∧ r % 2 ^ 29 = 0) ∧
    (52 ≤ fuel → v / 2 ^ 63 % 2 = 0 → v / 2 ^ 52 % 2048 < 2047 →
      ¬ (v / 2 ^ 52 % 2048 = 0 ∧ v % 2 ^ 52 = 0) →
      ∃ r, ApproximateReciprocalSquareRoot fuel v = some r ∧ r % 2 ^ 26 = 0) ∧
    ApproximateReciprocal 0x4010000000000000 = some 0x3FCFFF0000000000 ∧
    0x3FCFFF0000000000 % 2 ^ 29 = 0 ∧
    (0x3FCFFF0000000000 : Nat) ≠ 0x3FD0000000000000 ∧
    doubleValue 0x3FD0000000000000 = 1 / 4 := by
  refine ⟨?_, ?_, by decide, by decide, by decide, ?_⟩
  · intro he1 he2
    exact ⟨_, fres_result v he1 he2, by omega⟩
  · intro hf hs he hnz
    exact ⟨_, frsqrte_result fuel v (Or.inl hf) hs he hnz, by omega⟩
  · norm_num [doubleValue]

/-- The exponent of the reciprocal estimate on the table path: `2045 - e` units. -/
theorem fres_exponent_eq (v : Nat) (he2 : v / 2 ^ 52 % 2048 < 1149) :
    sub64 (0x7FD <<< 52) (v &&& (0x7FF <<< 52)) = (2045 - v / 2 ^ 52 % 2048) * 2 ^ 52 := by
  unfold sub64
  have c1 : toInt64 (0x7FD <<< 52) = 2045 * 2 ^ 52 := by decide
  rw [and_exponent, c1, toInt64_of_lt (exponent_lt v)]
  unfold ofInt64
  omega

/-- C19: on every input with exponent field `e`, `895 ≤ e < 1149`, sign bit `s` and
mantissa `m`, the result of `ApproximateReciprocal` is
`(s << 63) | ((2045 - e) << 52) | ((fres_base[r] - (fres_dec[r] * k + 1) div 2) << 29)`
with `r = m >> 47`, one of the 32 rows, and `k = (m >> 37) mod 1024`; the exponent is
negated about 2045, with no halving. -/
theorem ApproximateReciprocal_table_path (v : Nat)
    (he1 : 895 ≤ v / 2 ^ 52 % 2048) (he2 : v / 2 ^ 52 % 2048 < 1149) :
    (v % 2 ^ 52) >>> 47 < 32 ∧
    0 ≤ fres_expected_base.getD ((v % 2 ^ 52) >>> 47) 0 -
      (fres_expected_dec.getD ((v % 2 ^ 52) >>> 47) 0 *
        ((((v % 2 ^ 52) >>> 37) % 1024 : Nat) : Int) + 1) / 2 ∧
    ApproximateReciprocal v =
      some (((v / 2 ^ 63 % 2) <<< 63) ||| ((2045 - v / 2 ^ 52 % 2048) <<< 52) |||
        ((fres_expected_base.getD ((v % 2 ^ 52) >>> 47) 0 -
          (fres_expected_dec.getD ((v % 2 ^ 52) >>> 47) 0 *
            ((((v % 2 ^ 52) >>> 37) % 1024 : Nat) : Int) + 1) / 2).toNat <<< 29)) := by
  have hm : v % 2 ^ 52 < 2 ^ 52 := Nat.mod_lt _ (by norm_num)
  have hrow : v % 2 ^ 52 / 2 ^ 47 < 32 := by omega
  obtain ⟨ht0, ht1⟩ := fresTerm_range (v % 2 ^ 52 / 2 ^ 47) (v % 2 ^ 52 / 2 ^ 37 % 1024)
    hrow (Nat.mod_lt _ (by norm_num))
  simp only [Nat.shiftRight_eq_div_pow, Nat.shiftLeft_eq]
  refine ⟨hrow, ht0, ?_⟩
  rw [fres_result v he1 he2, fields_or_eq_add _ _ _ (by omega) (by unfold fresTerm at ht1; omega)]
  rfl

/-- The input `4.0`: exponent field 1025. -/
theorem ApproximateReciprocal_table_path_witness :
    (0x4010000000000000 % 2 ^ 52) >>> 47 < 32 ∧
    0 ≤ fres_expected_base.getD ((0x4010000000000000 % 2 ^ 52) >>> 47) 0 -
      (fres_expected_dec.getD ((0x4010000000000000 % 2 ^ 52) >>> 47) 0 *
        ((((0x4010000000000000 % 2 ^ 52) >>> 37) % 1024 : Nat) : Int) + 1) / 2 ∧
    ApproximateReciprocal 0x4010000000000000 =
      some (((0x4010000000000000 / 2 ^ 63 % 2) <<< 63) |||
        ((2045 - 0x4010000000000000 / 2 ^ 52 % 2048) <<< 52) |||
        ((fres_expected_base.getD ((0x4010000000000000 % 2 ^ 52) >>> 47) 0 -
          (fres_expected_dec.getD ((0x4010000000000000 % 2 ^ 52) >>> 47) 0 *
            ((((0x4010000000000000 % 2 ^ 52) >>> 37) % 1024 : Nat) : Int) + 1) / 2).toNat
          <<< 29)) :=
  ApproximateReciprocal_table_path 0x4010000000000000 (by decide) (by decide)

/-- C20: no carry or borrow into the exponent. For every row and every in-row offset
the interpolated term is non-negative and fits its field:
`0 ≤ base[row] - dec[row] * offset < 2^26` for the square-root tables (offset below
2048) and `0 ≤ base[row] - (dec[row] * offset + 1) div 2 < 2^23` for the reciprocal
tables (offset below 1024). So on every table-path result the sign bit is the sign
computed before the OR, the exponent field is the exponent computed before the OR, and
the mantissa field is the shifted term. -/
theorem table_term_no_carry :
    (∀ row offset : Nat, row < 32 → offset < 2048 →
      0 ≤ frsqrte_expected_base.getD row 0 - frsqrte_expected_dec.getD row 0 * (offset : Int) ∧
      frsqrte_expected_base.getD row 0 - frsqrte_expected_dec.getD row 0 * (offset : Int)
        < 2 ^ 26) ∧
    (∀ row offset : Nat, row < 32 → offset < 1024 →
      0 ≤ fres_expected_base.getD row 0 -
        (fres_expected_dec.getD row 0 * (offset : Int) + 1) / 2 ∧
      fres_expected_base.getD row 0 - (fres_expected_dec.getD row 0 * (offset : Int) + 1) / 2
        < 2 ^ 23) ∧
    (∀ v, 895 ≤ v / 2 ^ 52 % 2048 → v / 2 ^ 52 % 2048 < 1149 →
      ∃ r, ApproximateReciprocal v = some r ∧
        r &&& (1 <<< 63) = v &&& (1 <<< 63) ∧
        r &&& (0x7FF <<< 52) = sub64 (0x7FD <<< 52) (v &&& (0x7FF <<< 52)) ∧
        r &&& ((1 <<< 52) - 1) =
          (fresTerm (v % 2 ^ 52 / 2 ^ 47) (v % 2 ^ 52 / 2 ^ 37 % 1024)).toNat <<< 29) ∧
    (∀ fuel v, 52 ≤ fuel → v / 2 ^ 63 % 2 = 0 → v / 2 ^ 52 % 2048 < 2047 →
      ¬ (v / 2 ^ 52 % 2048 = 0 ∧ v % 2 ^ 52 = 0) →
      ∃ exponent mantissa r,
        normalize fuel (v &&& (0x7FF <<< 52)) (v &&& ((1 <<< 52) - 1))
          = some (exponent, mantissa) ∧
        ApproximateReciprocalSquareRoot fuel v = some r ∧
        r &&& (1 <<< 63) = v &&& (1 <<< 63) ∧
        r &&& (0x7FF <<< 52) = frsqrteExponent exponent ∧
        r &&& ((1 <<< 52) - 1) =
          (frsqrteTerm (mantissa / 2 ^ 37 / 2048 + (if oddExponent exponent then 16 else 0))
            (mantissa / 2 ^ 37 % 2048)).toNat <<< 26) := by
  refine ⟨fun row offset hr ho => frsqrteTerm_range row offset hr ho,
    fun row offset hr ho => fresTerm_range row offset hr ho, ?_, ?_⟩
  · intro v he1 he2
    have hm : v % 2 ^ 52 < 2 ^ 52 := Nat.mod_lt _ (by norm_num)
    obtain ⟨ht0, ht1⟩ := fresTerm_range (v % 2 ^ 52 / 2 ^ 47) (v % 2 ^ 52 / 2 ^ 37 % 1024)
      (by omega) (Nat.mod_lt _ (by norm_num))
    refine ⟨_, fres_result v he1 he2, ?_, ?_, ?_⟩
    · rw [and_sign, and_sign]; omega
    · rw [fres_exponent_eq v he2, and_exponent]; omega
    · rw [and_mantissa, Nat.shiftLeft_eq]; omega
  · intro fuel v hf hs he hnz
    obtain ⟨hn1, hn2, -, -⟩ := normalisedExponent_bounds v he hnz
    have hm := normalisedMantissa_lt v
    have hrow : normalisedMantissa v / 2 ^ 37 / 2048 +
        (if normalisedExponent v % 2 = 0 then 16 else 0) < 32 := by
      split_ifs <;> omega
    obtain ⟨ht0, ht1⟩ := frsqrteTerm_range _ (normalisedMantissa v / 2 ^ 37 % 2048) hrow
      (Nat.mod_lt _ (by norm_num))
    refine ⟨_, _, _, normalize_eq fuel v (Or.inl hf) he hnz,
      frsqrte_result fuel v (Or.inl hf) hs he hnz, ?_, ?_, ?_⟩
    · rw [and_sign, and_sign]; omega
    · rw [frsqrteExponent_eq _ hn1 hn2, and_exponent]; omega
    · rw [and_mantissa, Nat.shiftLeft_eq, oddExponent_eq]
      simp only [decide_eq_true_eq]
      omega

/-! ## Exponent halving and table-half selection -/

theorem frsqrteIndex_natCast (i : Nat) (odd_exponent : Bool) :
    frsqrteIndex (i : Int) odd_exponent
      = ((i / 2048 + (if odd_exponent then 16 else 0) : Nat) : Int) := by
  unfold frsqrteIndex
  rw [Int.tdiv_eq_ediv (Int.ofNat_nonneg i) (by norm_num)]
  cases odd_exponent <;> simp

/-- On a normal number the normalised exponent is the exponent field. -/
theorem normalisedExponent_normal (v : Nat) (h : v / 2 ^ 52 % 2048 ≠ 0) :
    normalisedExponent v = ((v / 2 ^ 52 % 2048 : Nat) : Int) := by
  unfold normalisedExponent
  rw [if_neg h]

/-- On a normal number the normalised mantissa is the mantissa field. -/
theorem normalisedMantissa_normal (v : Nat) (h : v / 2 ^ 52 % 2048 ≠ 0) :
    normalisedMantissa v = v % 2 ^ 52 := by
  unfold normalisedMantissa
  rw [if_neg h]

/-- C16: exponent halving. On every positive finite nonzero input the normalisation
block returns an exponent of `en` units (`en` the exponent field `1..2046` of a normal
number, `-51..0` for a denormal, held as a signed multiple of `2^52`), the masked value
`((1023<<52) - ((en<<52) - (1022<<52)) / 2) & (0x7FF<<52)` is `(3068 - en) div 2` units,
and this is the exponent field of the result; it lies in `511..1559`, so the result is
a positive normal number. -/
theorem frsqrte_exponent_halving (fuel v : Nat) (hf : 52 ≤ fuel) (hs : v / 2 ^ 63 % 2 = 0)
    (he : v / 2 ^ 52 % 2048 < 2047) (hnz : ¬ (v / 2 ^ 52 % 2048 = 0 ∧ v % 2 ^ 52 = 0)) :
    ∃ exponent mantissa r,
      normalize fuel (v &&& (0x7FF <<< 52)) (v &&& ((1 <<< 52) - 1))
        = some (exponent, mantissa) ∧
      toInt64 exponent = normalisedExponent v * 2 ^ 52 ∧
      (v / 2 ^ 52 % 2048 ≠ 0 → normalisedExponent v = ((v / 2 ^ 52 % 2048 : Nat) : Int) ∧
        1 ≤ normalisedExponent v ∧ normalisedExponent v ≤ 2046) ∧
      (v / 2 ^ 52 % 2048 = 0 → -51 ≤ normalisedExponent v ∧ normalisedExponent v ≤ 0) ∧
      frsqrteExponent exponent = ((3068 - normalisedExponent v) / 2).toNat <<< 52 ∧
      ApproximateReciprocalSquareRoot fuel v = some r ∧
      ((r / 2 ^ 52 % 2048 : Nat) : Int) = (3068 - normalisedExponent v) / 2 ∧
      511 ≤ r / 2 ^ 52 % 2048 ∧ r / 2 ^ 52 % 2048 ≤ 1559 ∧
      r / 2 ^ 63 = 0 ∧
      ClassifyDouble r = PPC_FPCLASS_PN := by
  obtain ⟨hn1, hn2, hden, hnor⟩ := normalisedExponent_bounds v he hnz
  have hm := normalisedMantissa_lt v
  have hrow : normalisedMantissa v / 2 ^ 37 / 2048 +
      (if normalisedExponent v % 2 = 0 then 16 else 0) < 32 := by
    split_ifs <;> omega
  obtain ⟨ht0, ht1⟩ := frsqrteTerm_range _ (normalisedMantissa v / 2 ^ 37 % 2048) hrow
    (Nat.mod_lt _ (by norm_num))
  refine ⟨_, _, _, normalize_eq fuel v (Or.inl hf) he hnz,
    toInt64_ofInt64 _ (by omega) (by omega),
    fun h => ⟨normalisedExponent_normal v h, hnor h, hn2⟩, fun h => ⟨hn1, hden h⟩,
    by rw [frsqrteExponent_eq _ hn1 hn2, Nat.shiftLeft_eq],
    frsqrte_result fuel v (Or.inl hf) hs he hnz, ?_, ?_, ?_, ?_, ?_⟩
  · omega
  · omega
  · omega
  · omega
  · rw [ClassifyDouble_eq_classifySpec]
    unfold classifySpec
    have e1 : (((3068 - normalisedExponent v) / 2).toNat * 2 ^ 52 +
        (frsqrteTerm (normalisedMantissa v / 2 ^ 37 / 2048 +
            (if normalisedExponent v % 2 = 0 then 16 else 0))
          (normalisedMantissa v / 2 ^ 37 % 2048)).toNat * 2 ^ 26) / 2 ^ 52 % 2 ^ 11
        = ((3068 - normalisedExponent v) / 2).toNat := by omega
    have e2 : (((3068 - normalisedExponent v) / 2).toNat * 2 ^ 52 +
        (frsqrteTerm (normalisedMantissa v / 2 ^ 37 / 2048 +
            (if normalisedExponent v % 2 = 0 then 16 else 0))
          (normalisedMantissa v / 2 ^ 37 % 2048)).toNat * 2 ^ 26) / 2 ^ (11 + 52) % 2
        = 0 := by omega
    have e3 : 0 < ((3068 - normalisedExponent v) / 2).toNat ∧
        ((3068 - normalisedExponent v) / 2).toNat < 2 ^ 11 - 1 := by omega
    simp only [e1, e2, if_pos e3, if_true]

/-- The least denormal `0x0000000000000001`: `en = -51`, result exponent 1559. -/
theorem frsqrte_exponent_halving_witness :
    ∃ exponent mantissa r,
      normalize 52 (1 &&& (0x7FF <<< 52)) (1 &&& ((1 <<< 52) - 1))
        = some (exponent, mantissa) ∧
      toInt64 exponent = normalisedExponent 1 * 2 ^ 52 ∧
      (1 / 2 ^ 52 % 2048 ≠ 0 → normalisedExponent 1 = ((1 / 2 ^ 52 % 2048 : Nat) : Int) ∧
        1 ≤ normalisedExponent 1 ∧ normalisedExponent 1 ≤ 2046) ∧
      (1 / 2 ^ 52 % 2048 = 0 → -51 ≤ normalisedExponent 1 ∧ normalisedExponent 1 ≤ 0) ∧
      frsqrteExponent exponent = ((3068 - normalisedExponent 1) / 2).toNat <<< 52 ∧
      ApproximateReciprocalSquareRoot 52 1 = some r ∧
      ((r / 2 ^ 52 % 2048 : Nat) : Int) = (3068 - normalisedExponent 1) / 2 ∧
      511 ≤ r / 2 ^ 52 % 2048 ∧ r / 2 ^ 52 % 2048 ≤ 1559 ∧
      r / 2 ^ 63 = 0 ∧
      ClassifyDouble r = PPC_FPCLASS_PN :=
  frsqrte_exponent_halving 52 1 (by decide) (by decide) (by decide) (by decide)

/-- C17, as stated, fails at `1.0` (`0x3FF0000000000000`): the normalised stored
exponent is 1023, the unbiased exponent 0 is even, yet the flag `odd_exponent` is false
and the row read is row 0, in the half `0..15`. -/
theorem odd_exponent_false_at_one :
    normalize 0 (0x3FF0000000000000 &&& (0x7FF <<< 52))
      (0x3FF0000000000000 &&& ((1 <<< 52) - 1)) = some (0x3FF <<< 52, 0) ∧
    toInt64 (0x3FF <<< 52) = 1023 * 2 ^ 52 ∧
    ((1023 : Int) - 1023) % 2 = 0 ∧
    oddExponent (0x3FF <<< 52) = false ∧
    frsqrteIndex (toInt32 (shr64 0 37)) (oddExponent (0x3FF <<< 52)) = 0 ∧
    ¬ (oddExponent (0x3FF <<< 52) = true ↔ ((1023 : Int) - 1023) % 2 = 0) := by
  decide

/-- C17, amended: on every finite nonzero input, so on the whole table path, the flag
`odd_exponent` is true, and rows `16..31` of the tables are read, exactly when the
unbiased exponent (normalised stored exponent minus 1023) is odd, that is when the
normalised stored exponent is even; rows `0..15` are read exactly when the unbiased
exponent is even. -/
theorem odd_exponent_parity (fuel v : Nat) (hf : 52 ≤ fuel)
    (he : v / 2 ^ 52 % 2048 < 2047) (hnz : ¬ (v / 2 ^ 52 % 2048 = 0 ∧ v % 2 ^ 52 = 0)) :
    ∃ exponent mantissa,
      normalize fuel (v &&& (0x7FF <<< 52)) (v &&& ((1 <<< 52) - 1))
        = some (exponent, mantissa) ∧
      toInt64 exponent = normalisedExponent v * 2 ^ 52 ∧
      (oddExponent exponent = true ↔ (normalisedExponent v - 1023) % 2 = 1) ∧
      (oddExponent exponent = true ↔ normalisedExponent v % 2 = 0) ∧
      (16 ≤ frsqrteIndex (toInt32 (shr64 mantissa 37)) (oddExponent exponent) ∧
        frsqrteIndex (toInt32 (shr64 mantissa 37)) (oddExponent exponent) ≤ 31
          ↔ (normalisedExponent v - 1023) % 2 = 1) ∧
      (0 ≤ frsqrteIndex (toInt32 (shr64 mantissa 37)) (oddExponent exponent) ∧
        frsqrteIndex (toInt32 (shr64 mantissa 37)) (oddExponent exponent) ≤ 15
          ↔ (normalisedExponent v - 1023) % 2 = 0) := by
  obtain ⟨hn1, hn2, -, -⟩ := normalisedExponent_bounds v he hnz
  have hm := normalisedMantissa_lt v
  have hi : normalisedMantissa v / 2 ^ 37 / 2048 < 16 := by omega
  refine ⟨_, _, normalize_eq fuel v (Or.inl hf) he hnz,
    toInt64_ofInt64 _ (by omega) (by omega), ?_, ?_, ?_, ?_⟩
  · rw [oddExponent_eq]; simp only [decide_eq_true_eq]; omega
  · rw [oddExponent_eq]; simp only [decide_eq_true_eq]
  · rw [toInt32_shr64 _ hm, frsqrteIndex_natCast, oddExponent_eq]
    by_cases hpar : normalisedExponent v % 2 = 0
    · simp only [hpar, decide_True, if_true]; omega
    · simp only [hpar, decide_False]; simp; omega
  · rw [toInt32_shr64 _ hm, frsqrteIndex_natCast, oddExponent_eq]
    by_cases hpar : normalisedExponent v % 2 = 0
    · simp only [hpar, decide_True, if_true]; omega
    · simp only [hpar, decide_False]; simp; omega

/-- The input `2.0` (`0x4000000000000000`): unbiased exponent 1, rows `16..31`. -/
theorem odd_exponent_parity_witness :
    ∃ exponent mantissa,
      normalize 52 (0x4000000000000000 &&& (0x7FF <<< 52))
        (0x4000000000000000 &&& ((1 <<< 52) - 1)) = some (exponent, mantissa) ∧
      toInt64 exponent = normalisedExponent 0x4000000000000000 * 2 ^ 52 ∧
      (oddExponent exponent = true ↔ (normalisedExponent 0x4000000000000000 - 1023) % 2 = 1) ∧
      (oddExponent exponent = true ↔ normalisedExponent 0x4000000000000000 % 2 = 0) ∧
      (16 ≤ frsqrteIndex (toInt32 (shr64 mantissa 37)) (oddExponent exponent) ∧
        frsqrteIndex (toInt32 (shr64 mantissa 37)) (oddExponent exponent) ≤ 31
          ↔ (normalisedExponent 0x4000000000000000 - 1023) % 2 = 1) ∧
      (0 ≤ frsqrteIndex (toInt32 (shr64 mantissa 37)) (oddExponent exponent) ∧
        frsqrteIndex (toInt32 (shr64 mantissa 37)) (oddExponent exponent) ≤ 15
          ↔ (normalisedExponent 0x4000000000000000 - 1023) % 2 = 0) :=
  odd_exponent_parity 52 0x4000000000000000 (by decide) (by decide) (by decide)

/-! ## Table lookup of the square-root estimate -/

/-- The flag `odd_exponent` on an exponent field `e` left in place. -/
theorem oddExponent_field (v : Nat) :
    oddExponent (v &&& (0x7FF <<< 52)) = decide (v / 2 ^ 52 % 2048 % 2 = 0) := by
  unfold oddExponent
  rw [and_bit52, and_exponent]
  congr 1
  apply propext
  constructor <;> intro h <;> omega

/-- C18, as stated, fails at `1.5` (`0x3FF8000000000000`): the result is
`0x3FEA204000000000`, with mantissa field `base[8] << 26`, while the formula of the
claim with `i` the top 11 bits of the mantissa (`i = mantissa >> 41`, so `i >> 11 = 0`)
reads row 0 and gives `(base[0] - dec[0] * 1024) << 26`. -/
theorem frsqrte_lookup_at_one_and_half :
    ApproximateReciprocalSquareRoot 0 0x3FF8000000000000 = some 0x3FEA204000000000 ∧
    0x3FEA204000000000 % 2 ^ 52 = (frsqrteTerm 8 0).toNat <<< 26 ∧
    (frsqrteTerm
        ((((0x3FF8000000000000 % 2 ^ 52) >>> 41) >>> 11) +
          (if oddExponent (0x3FF8000000000000 &&& (0x7FF <<< 52)) then 16 else 0))
        (((0x3FF8000000000000 % 2 ^ 52) >>> 41) % 2048)).toNat <<< 26
      = (frsqrteTerm 0 1024).toNat <<< 26 ∧
    0x3FEA204000000000 % 2 ^ 52 ≠
      (frsqrteTerm
        ((((0x3FF8000000000000 % 2 ^ 52) >>> 41) >>> 11) +
          (if oddExponent (0x3FF8000000000000 &&& (0x7FF <<< 52)) then 16 else 0))
        (((0x3FF8000000000000 % 2 ^ 52) >>> 41) % 2048)).toNat <<< 26 := by
  decide

/-- C18, amended: on every positive normal input, for every fuel, the mantissa field of
the result is `(base[row] - dec[row] * (i mod 2048)) << 26`, a non-negative term, where
the table index `i = mantissa >> 37` is the top 15 bits of the 52-bit mantissa of the
input and `row = (i >> 11) + (odd_exponent ? 16 : 0)` is one of the 32 rows. -/
theorem frsqrte_table_lookup (fuel v : Nat) (hs : v / 2 ^ 63 % 2 = 0)
    (he0 : 0 < v / 2 ^ 52 % 2048) (he : v / 2 ^ 52 % 2048 < 2047) :
    (v % 2 ^ 52) >>> 37 < 2 ^ 15 ∧
    (((v % 2 ^ 52) >>> 37) >>> 11) +
      (if oddExponent (v &&& (0x7FF <<< 52)) then 16 else 0) < 32 ∧
    0 ≤ frsqrte_expected_base.getD ((((v % 2 ^ 52) >>> 37) >>> 11) +
          (if oddExponent (v &&& (0x7FF <<< 52)) then 16 else 0)) 0 -
        frsqrte_expected_dec.getD ((((v % 2 ^ 52) >>> 37) >>> 11) +
          (if oddExponent (v &&& (0x7FF <<< 52)) then 16 else 0)) 0 *
        ((((v % 2 ^ 52) >>> 37) % 2048 : Nat) : Int) ∧
    ∃ r, ApproximateReciprocalSquareRoot fuel v = some r ∧
      r % 2 ^ 52 =
        (frsqrte_expected_base.getD ((((v % 2 ^ 52) >>> 37) >>> 11) +
            (if oddExponent (v &&& (0x7FF <<< 52)) then 16 else 0)) 0 -
          frsqrte_expected_dec.getD ((((v % 2 ^ 52) >>> 37) >>> 11) +
            (if oddExponent (v &&& (0x7FF <<< 52)) then 16 else 0)) 0 *
          ((((v % 2 ^ 52) >>> 37) % 2048 : Nat) : Int)).toNat <<< 26 := by
  have hne : v / 2 ^ 52 % 2048 ≠ 0 := by omega
  have hnz : ¬ (v / 2 ^ 52 % 2048 = 0 ∧ v % 2 ^ 52 = 0) := fun h => hne h.1
  have hm : v % 2 ^ 52 < 2 ^ 52 := Nat.mod_lt _ (by norm_num)
  have hpar : (if normalisedExponent v % 2 = 0 then 16 else 0 : Nat)
      = (if v / 2 ^ 52 % 2048 % 2 = 0 then 16 else 0) := by
    rw [normalisedExponent_normal v hne]
    split_ifs <;> omega
  have hres := frsqrte_result fuel v (Or.inr hne) hs he hnz
  rw [normalisedMantissa_normal v hne, hpar] at hres
  simp only [oddExponent_field, decide_eq_true_eq]
  simp only [Nat.shiftRight_eq_div_pow, Nat.shiftLeft_eq]
  have e11 : (2 : Nat) ^ 11 = 2048 := by norm_num
  rw [e11]
  have hrow : v % 2 ^ 52 / 2 ^ 37 / 2048 +
      (if v / 2 ^ 52 % 2048 % 2 = 0 then 16 else 0) < 32 := by
    split_ifs <;> omega
  obtain ⟨ht0, ht1⟩ := frsqrteTerm_range _ (v % 2 ^ 52 / 2 ^ 37 % 2048) hrow
    (Nat.mod_lt _ (by norm_num))
  refine ⟨by omega, hrow, ht0, _, hres, ?_⟩
  change (((3068 - normalisedExponent v) / 2).toNat * 2 ^ 52 +
      (frsqrteTerm (v % 2 ^ 52 / 2 ^ 37 / 2048 +
          (if v / 2 ^ 52 % 2048 % 2 = 0 then 16 else 0))
        (v % 2 ^ 52 / 2 ^ 37 % 2048)).toNat * 2 ^ 26) % 2 ^ 52 =
    (frsqrteTerm (v % 2 ^ 52 / 2 ^ 37 / 2048 +
          (if v / 2 ^ 52 % 2048 % 2 = 0 then 16 else 0))
        (v % 2 ^ 52 / 2 ^ 37 % 2048)).toNat * 2 ^ 26
  omega

/-- The input `1.5` of the counterexample: row 8, offset 0. -/
theorem frsqrte_table_lookup_witness :
    (0x3FF8000000000000 % 2 ^ 52) >>> 37 < 2 ^ 15 ∧
    (((0x3FF8000000000000 % 2 ^ 52) >>> 37) >>> 11) +
      (if oddExponent (0x3FF8000000000000 &&& (0x7FF <<< 52)) then 16 else 0) < 32 ∧
    0 ≤ frsqrte_expected_base.getD ((((0x3FF8000000000000 % 2 ^ 52) >>> 37) >>> 11) +
          (if oddExponent (0x3FF8000000000000 &&& (0x7FF <<< 52)) then 16 else 0)) 0 -
        frsqrte_expected_dec.getD ((((0x3FF8000000000000 % 2 ^ 52) >>> 37) >>> 11) +
          (if oddExponent (0x3FF8000000000000 &&& (0x7FF <<< 52)) then 16 else 0)) 0 *
        ((((0x3FF8000000000000 % 2 ^ 52) >>> 37) % 2048 : Nat) : Int) ∧
    ∃ r, ApproximateReciprocalSquareRoot 0 0x3FF8000000000000 = some r ∧
      r % 2 ^ 52 =
        (frsqrte_expected_base.getD ((((0x3FF8000000000000 % 2 ^ 52) >>> 37) >>> 11) +
            (if oddExponent (0x3FF8000000000000 &&& (0x7FF <<< 52)) then 16 else 0)) 0 -
          frsqrte_expected_dec.getD ((((0x3FF8000000000000 % 2 ^ 52) >>> 37) >>> 11) +
            (if oddExponent (0x3FF8000000000000 &&& (0x7FF <<< 52)) then 16 else 0)) 0 *
          ((((0x3FF8000000000000 % 2 ^ 52) >>> 37) % 2048 : Nat) : Int)).toNat <<< 26 :=
  frsqrte_table_lookup 0 0x3FF8000000000000 (by decide) (by decide) (by decide)

/-! ## The denormal block: value and iteration count -/

/-- A mantissa with highest set bit at position `p`, shifted left by `52 - p`, has its
highest set bit at position 52. -/
theorem shifted_mantissa (m : Nat) (h0 : 0 < m) (h : m < 2 ^ 52) :
    2 ^ 52 + m * 2 ^ (52 - Nat.log 2 m) % 2 ^ 52 = m * 2 ^ (52 - Nat.log 2 m) := by
  obtain ⟨hp, hlo, hhi⟩ := log_bounds m h0 h
  have e1 : 2 ^ Nat.log 2 m * 2 ^ (52 - Nat.log 2 m) = 2 ^ 52 := by
    rw [← pow_add]; congr 1; omega
  have e2 : 2 ^ (Nat.log 2 m + 1) * 2 ^ (52 - Nat.log 2 m) = 2 ^ 53 := by
    rw [← pow_add]; congr 1; omega
  have hpos : 0 < 2 ^ (52 - Nat.log 2 m) := Nat.two_pow_pos _
  have h1 : 2 ^ 52 ≤ m * 2 ^ (52 - Nat.log 2 m) := by
    rw [← e1]; exact Nat.mul_le_mul_right _ hlo
  have h2 : m * 2 ^ (52 - Nat.log 2 m) < 2 ^ 53 := by
    rw [← e2]; exact Nat.mul_lt_mul_of_pos_right hhi hpos
  omega

/-- C14: denormal renormalisation preserves the value. On every positive denormal input
with mantissa `v` (`0 < v < 2^52`, highest set bit at position `p = Nat.log 2 v`) the
normalisation block returns a pair `(exponent, mantissa)` with `mantissa < 2^52` and
`exponent` the signed 64-bit multiple `(p - 51) * 2^52` of `2^52`, where `p - 51 ≤ 0`, and
`(2^52 + mantissa) * 2^((p - 51) - 1) = v`, that is
`(1 + mantissa / 2^52) * 2^((p - 51) - 1023) = v * 2^(-1074)`, the value of the
denormal. -/
theorem normalize_denormal_value (fuel v : Nat) (h0 : 0 < v) (hv : v < 2 ^ 52)
    (hf : 52 ≤ fuel) :
    ∃ exponent mantissa,
      normalize fuel (v &&& (0x7FF <<< 52)) (v &&& ((1 <<< 52) - 1))
        = some (exponent, mantissa) ∧
      2 ^ Nat.log 2 v ≤ v ∧ v < 2 ^ (Nat.log 2 v + 1) ∧
      mantissa < 2 ^ 52 ∧
      toInt64 exponent = ((Nat.log 2 v : Int) - 51) * 2 ^ 52 ∧
      (Nat.log 2 v : Int) - 51 ≤ 0 ∧
      ((2 : ℚ) ^ 52 + (mantissa : ℚ)) * (2 : ℚ) ^ (((Nat.log 2 v : Int) - 51) - 1) = (v : ℚ) ∧
      (1 + (mantissa : ℚ) / 2 ^ 52) * (2 : ℚ) ^ (((Nat.log 2 v : Int) - 51) - 1023)
        = (v : ℚ) * (2 : ℚ) ^ (-1074 : ℤ) ∧
      doubleValue v = (v : ℚ) * (2 : ℚ) ^ (-1074 : ℤ) := by
  obtain ⟨hp, hlo, hhi⟩ := log_bounds v h0 hv
  have hE : v &&& (0x7FF <<< 52) = 0 := by
    rw [and_exponent, Nat.div_eq_of_lt hv]; rfl
  have hM : v &&& ((1 <<< 52) - 1) = v := by
    rw [and_mantissa, Nat.mod_eq_of_lt hv]
  have hsh := shifted_mantissa v h0 hv
  have hq : (2 : ℚ) ^ 52 + ((v * 2 ^ (52 - Nat.log 2 v) % 2 ^ 52 : Nat) : ℚ)
      = (v : ℚ) * (2 : ℚ) ^ ((52 : Int) - (Nat.log 2 v : Int)) := by
    have h1 : (((2 ^ 52 + v * 2 ^ (52 - Nat.log 2 v) % 2 ^ 52 : Nat)) : ℚ)
        = ((v * 2 ^ (52 - Nat.log 2 v) : Nat) : ℚ) := by rw [hsh]
    have h2 : ((52 : Int) - (Nat.log 2 v : Int)) = ((52 - Nat.log 2 v : Nat) : Int) := by
      omega
    rw [h2, zpow_natCast]
    push_cast at h1
    exact h1
  have h2ne : (2 : ℚ) ≠ 0 := two_ne_zero
  rw [hE, hM, normalize_denormal fuel v h0 hv, if_neg (by omega)]
  refine ⟨_, _, rfl, hlo, hhi, Nat.mod_lt _ (by norm_num),
    toInt64_ofInt64 _ (by omega) (by omega), by omega, ?_, ?_, ?_⟩
  · rw [hq, mul_assoc, ← zpow_add₀ h2ne]
    have e : (52 : Int) - (Nat.log 2 v : Int) + ((Nat.log 2 v : Int) - 51 - 1) = 0 := by ring
    rw [e, zpow_zero, mul_one]
  · have e1 : (1 + ((v * 2 ^ (52 - Nat.log 2 v) % 2 ^ 52 : Nat) : ℚ) / 2 ^ 52)
        = ((2 : ℚ) ^ 52 + ((v * 2 ^ (52 - Nat.log 2 v) % 2 ^ 52 : Nat) : ℚ))
          * (2 : ℚ) ^ (-52 : Int) := by
      rw [zpow_neg, add_mul]
      norm_num
      ring
    rw [e1, hq, mul_assoc, mul_assoc, ← zpow_add₀ h2ne, ← zpow_add₀ h2ne]
    congr 2
    ring
  · unfold doubleValue
    have s0 : v / 2 ^ 63 % 2 = 0 := by omega
    have e0 : v / 2 ^ 52 % 2048 = 0 := by omega
    simp only [s0, e0, if_true, Nat.mod_eq_of_lt hv, one_mul]

/-- The least denormal `0x0000000000000001`: `p = 0`, 52 iterations. -/
theorem normalize_denormal_value_witness :
    ∃ exponent mantissa,
      normalize 52 (1 &&& (0x7FF <<< 52)) (1 &&& ((1 <<< 52) - 1))
        = some (exponent, mantissa) ∧
      2 ^ Nat.log 2 1 ≤ 1 ∧ 1 < 2 ^ (Nat.log 2 1 + 1) ∧
      mantissa < 2 ^ 52 ∧
      toInt64 exponent = ((Nat.log 2 1 : Int) - 51) * 2 ^ 52 ∧
      (Nat.log 2 1 : Int) - 51 ≤ 0 ∧
      ((2 : ℚ) ^ 52 + (mantissa : ℚ)) * (2 : ℚ) ^ (((Nat.log 2 1 : Int) - 51) - 1)
        = ((1 : Nat) : ℚ) ∧
      (1 + (mantissa : ℚ) / 2 ^ 52) * (2 : ℚ) ^ (((Nat.log 2 1 : Int) - 51) - 1023)
        = ((1 : Nat) : ℚ) * (2 : ℚ) ^ (-1074 : ℤ) ∧
      doubleValue 1 = ((1 : Nat) : ℚ) * (2 : ℚ) ^ (-1074 : ℤ) :=
  normalize_denormal_value 52 1 (by decide) (by decide) (by decide)

/-- On a zero mantissa the loop never ends: it fails for every fuel. -/
theorem normalizeLoop_zero (fuel : Nat) : ∀ exponent, normalizeLoop fuel exponent 0 = none := by
  induction fuel with
  | zero => intro _; rfl
  | succ fuel ih =>
    intro exponent
    rw [normalizeLoop]
    have e1 : shl64 0 1 = 0 := by decide
    simp only [e1, Nat.zero_and, if_true]
    exact ih _

/-- C15: the denormal loop ends on every nonzero 52-bit mantissa `m`, with highest set
bit at position `p = Nat.log 2 m`, after exactly `52 - p` iterations: it returns when
the fuel covers `52 - p` executions of the body and not with less. The count is at least
1 and at most 52, it is 52 for `m = 1` and 1 when bit 51 is set. The loop is entered
with a nonzero mantissa only: on a zero mantissa it would never end, and every input
with a zero mantissa field returns with no fuel at all. -/
theorem normalizeLoop_iterations (m : Nat) (h0 : 0 < m) (hm : m < 2 ^ 52) :
    (∀ fuel exponent,
      (normalizeLoop fuel exponent m).isSome = true ↔ 52 - Nat.log 2 m ≤ fuel) ∧
    2 ^ Nat.log 2 m ≤ m ∧ m < 2 ^ (Nat.log 2 m + 1) ∧
    1 ≤ 52 - Nat.log 2 m ∧ 52 - Nat.log 2 m ≤ 52 ∧
    (m = 1 → 52 - Nat.log 2 m = 52) ∧
    (2 ^ 51 ≤ m → 52 - Nat.log 2 m = 1) ∧
    (∀ exponent, ∃ st, normalizeLoop 52 exponent m = some st) ∧
    (∀ fuel exponent, normalizeLoop fuel exponent 0 = none) ∧
    (∀ v, v &&& ((1 <<< 52) - 1) = 0 →
      ∃ r, ApproximateReciprocalSquareRoot 0 v = some r) := by
  obtain ⟨hp, hlo, hhi⟩ := log_bounds m h0 hm
  refine ⟨?_, hlo, hhi, by omega, by omega, ?_, ?_, ?_, normalizeLoop_zero, ?_⟩
  · intro fuel exponent
    rw [normalizeLoop_log fuel exponent m h0 hm]
    split_ifs with h
    · simp; omega
    · simp; omega
  · intro h1
    subst h1
    simp
  · intro h51
    have h3 : 2 ^ 51 < 2 ^ (Nat.log 2 m + 1) := lt_of_le_of_lt h51 hhi
    have h4 : 51 < Nat.log 2 m + 1 := (Nat.pow_lt_pow_iff_right (by norm_num)).mp h3
    omega
  · intro exponent
    rw [normalizeLoop_log 52 exponent m h0 hm, if_neg (by omega)]
    exact ⟨_, rfl⟩
  · intro v hmant
    unfold ApproximateReciprocalSquareRoot
    simp only [hmant, true_and, if_true]
    split_ifs with h1 h2 h3 h4
    · exact ⟨_, rfl⟩
    · exact ⟨_, rfl⟩
    · exact ⟨_, rfl⟩
    · exact ⟨_, rfl⟩
    · exact ⟨_, rfl⟩
    · unfold frsqrteTablePath normalize
      rw [if_neg h1]
      have hi : toInt32 (shr64 0 37) = ((0 : Nat) : Int) := by decide
      simp only [hi, frsqrteEntry_eq 0 (by norm_num)]
      exact ⟨_, rfl⟩

/-- The mantissa `1`, which needs all 52 iterations. -/
theorem normalizeLoop_iterations_witness :
    (∀ fuel exponent,
      (normalizeLoop fuel exponent 1).isSome = true ↔ 52 - Nat.log 2 1 ≤ fuel) ∧
    2 ^ Nat.log 2 1 ≤ 1 ∧ 1 < 2 ^ (Nat.log 2 1 + 1) ∧
    1 ≤ 52 - Nat.log 2 1 ∧ 52 - Nat.log 2 1 ≤ 52 ∧
    (1 = 1 → 52 - Nat.log 2 1 = 52) ∧
    (2 ^ 51 ≤ 1 → 52 - Nat.log 2 1 = 1) ∧
    (∀ exponent, ∃ st, normalizeLoop 52 exponent 1 = some st) ∧
    (∀ fuel exponent, normalizeLoop fuel exponent 0 = none) ∧
    (∀ v, v &&& ((1 <<< 52) - 1) = 0 →
      ∃ r, ApproximateReciprocalSquareRoot 0 v = some r) :=
  normalizeLoop_iterations 1 (by decide) (by decide)

/-! ## Accuracy of the reciprocal estimate -/

/-- A concave quadratic `(A + k) * (Bp - D * k - 1)` stays above a bound on `0..1023`
when it does at both ends. -/
theorem quad_lower (A Bp D k c : Int) (hk0 : 0 ≤ k) (hk1 : k ≤ 1023) (hD : 0 ≤ D)
    (c0 : c ≤ A * (Bp - 1)) (c1 : c ≤ (A + 1023) * (Bp - 1023 * D - 1)) :
    c ≤ (A + k) * (Bp - D * k - 1) := by
  nlinarith [mul_nonneg hk0 (sub_nonneg.2 hk1),
    mul_nonneg (mul_nonneg hk0 (sub_nonneg.2 hk1)) hD,
    mul_nonneg (sub_nonneg.2 c0) (sub_nonneg.2 hk1), mul_nonneg (sub_nonneg.2 c1) hk0]

/-- A concave quadratic `(A1 + k) * (Bp - D * k)` stays below a bound that its maximum
over all `k` does not exceed. -/
theorem quad_upper (A1 Bp D k C : Int) (hD : 0 < D)
    (disc : (Bp - D * A1) ^ 2 ≤ 4 * D * (C - Bp * A1)) :
    (A1 + k) * (Bp - D * k) ≤ C := by
  nlinarith [sq_nonneg (2 * D * k - (Bp - D * A1))]

/-- Row by row, the numeric conditions under which the reciprocal estimate is within
`2^-12` of the reciprocal on the whole row: the lower bound at both ends of the row and
the bound on the maximum of the quadratic. -/
theorem fres_row_conditions : ∀ r, r < 32 →
    0 < fres_expected_dec.getD r 0 ∧
    (2 ^ 40 - 2 ^ 28 : Int) ≤ (2 ^ 15 + 1024 * (r : Int)) *
      (2 ^ 24 + 2 * fres_expected_base.getD r 0 - 1) ∧
    (2 ^ 40 - 2 ^ 28 : Int) ≤ (2 ^ 15 + 1024 * (r : Int) + 1023) *
      (2 ^ 24 + 2 * fres_expected_base.getD r 0 - 1023 * fres_expected_dec.getD r 0 - 1) ∧
    (2 ^ 24 + 2 * fres_expected_base.getD r 0
        - fres_expected_dec.getD r 0 * (2 ^ 15 + 1024 * (r : Int) + 1)) ^ 2
      ≤ 4 * fres_expected_dec.getD r 0 *
        (2 ^ 40 + 2 ^ 28 - (2 ^ 24 + 2 * fres_expected_base.getD r 0) *
          (2 ^ 15 + 1024 * (r : Int) + 1)) := by
  decide

/-- The product of the significand `2^52 + m` of the input and the significand
`2^23 + term` of the reciprocal estimate is within `2^64` of `2^76`. -/
theorem fres_product_bounds (m : Nat) (hm : m < 2 ^ 52) :
    (2 ^ 76 - 2 ^ 64 : Int) ≤
      (2 ^ 52 + (m : Int)) * (2 ^ 23 + fresTerm (m / 2 ^ 47) (m / 2 ^ 37 % 1024)) ∧
    (2 ^ 52 + (m : Int)) * (2 ^ 23 + fresTerm (m / 2 ^ 47) (m / 2 ^ 37 % 1024))
      ≤ 2 ^ 76 + 2 ^ 64 := by
  have hrow : m / 2 ^ 47 < 32 := by omega
  have hk : m / 2 ^ 37 % 1024 < 1024 := Nat.mod_lt _ (by norm_num)
  obtain ⟨hD, c0, c1, disc⟩ := fres_row_conditions _ hrow
  obtain ⟨ht0, ht1⟩ := fresTerm_range _ _ hrow hk
  generalize hT : fresTerm (m / 2 ^ 47) (m / 2 ^ 37 % 1024) = T at ht0 ht1 ⊢
  unfold fresTerm at hT
  generalize hB : fres_expected_base.getD (m / 2 ^ 47) 0 = B at hT c0 c1 disc
  generalize hDd : fres_expected_dec.getD (m / 2 ^ 47) 0 = D at hT c0 c1 disc hD
  have hk0 : (0 : Int) ≤ ((m / 2 ^ 37 % 1024 : Nat) : Int) := Int.ofNat_nonneg _
  have hk1 : ((m / 2 ^ 37 % 1024 : Nat) : Int) ≤ 1023 := by omega
  generalize hK : ((m / 2 ^ 37 % 1024 : Nat) : Int) = k at hT hk0 hk1
  generalize hR : ((m / 2 ^ 47 : Nat) : Int) = r at c0 c1 disc
  have hr0 : 0 ≤ r := by omega
  -- the index `i = 1024 * r + k` brackets the mantissa
  have hm1 : 2 ^ 37 * (1024 * r + k) ≤ (m : Int) := by omega
  have hm2 : (m : Int) < 2 ^ 37 * (1024 * r + k + 1) := by omega
  -- the floor in the term
  generalize hx : D * k = x at hT
  have hT1 : 2 ^ 24 + 2 * B - x - 1 ≤ 2 * (2 ^ 23 + T) := by omega
  have hT2 : 2 * (2 ^ 23 + T) ≤ 2 ^ 24 + 2 * B - x := by omega
  have hlow := quad_lower (2 ^ 15 + 1024 * r) (2 ^ 24 + 2 * B) D k (2 ^ 40 - 2 ^ 28)
    hk0 hk1 (le_of_lt hD) c0 (by linarith)
  have hupp := quad_upper (2 ^ 15 + 1024 * r + 1) (2 ^ 24 + 2 * B) D k (2 ^ 40 + 2 ^ 28)
    hD disc
  rw [hx] at hlow hupp
  have hA : (0 : Int) ≤ 2 ^ 15 + 1024 * r + k := by omega
  have hS : (0 : Int) ≤ 2 ^ 23 + T := by omega
  constructor
  · have h1 : (2 ^ 15 + 1024 * r + k) * (2 ^ 24 + 2 * B - x - 1)
        ≤ (2 ^ 15 + 1024 * r + k) * (2 * (2 ^ 23 + T)) :=
      mul_le_mul_of_nonneg_left hT1 hA
    have h2 : 2 ^ 37 * (2 ^ 15 + 1024 * r + k) * (2 ^ 23 + T)
        ≤ (2 ^ 52 + (m : Int)) * (2 ^ 23 + T) :=
      mul_le_mul_of_nonneg_right (by linarith) hS
    nlinarith
  · have h1 : (2 ^ 15 + 1024 * r + 1 + k) * (2 * (2 ^ 23 + T))
        ≤ (2 ^ 15 + 1024 * r + 1 + k) * (2 ^ 24 + 2 * B - x) :=
      mul_le_mul_of_nonneg_left hT2 (by omega)
    have h2 : (2 ^ 52 + (m : Int)) * (2 ^ 23 + T)
        ≤ 2 ^ 37 * (2 ^ 15 + 1024 * r + 1 + k) * (2 ^ 23 + T) :=
      mul_le_mul_of_nonneg_right (by linarith) hS
    nlinarith

/-- The reading of patterns as rationals on familiar values: `1.0`, `4.0`, `0.25`, `-1.5`
and the largest denormal. -/
theorem doubleValue_samples :
    doubleValue 0x3FF0000000000000 = 1 ∧
    doubleValue 0x4010000000000000 = 4 ∧
    doubleValue 0x3FD0000000000000 = 1 / 4 ∧
    doubleValue 0xBFF8000000000000 = -3 / 2 ∧
    doubleValue 0x000FFFFFFFFFFFFF = (2 ^ 52 - 1) * (2 : ℚ) ^ (-1074 : ℤ) := by
  refine ⟨?_, ?_, ?_, ?_, ?_⟩ <;> norm_num [doubleValue]

/-- The value of a pattern with a nonzero exponent field. -/
theorem doubleValue_normal (v : Nat) (he : v / 2 ^ 52 % 2048 ≠ 0) :
    doubleValue v = (if v / 2 ^ 63 % 2 = 0 then (1 : ℚ) else -1) *
      (((2 : ℚ) ^ 52 + ((v % 2 ^ 52 : Nat) : ℚ)) *
        (2 : ℚ) ^ (((v / 2 ^ 52 % 2048 : Nat) : ℤ) - 1075)) := by
  unfold doubleValue
  simp only [if_neg he]

/-- The product of two values of the same sign. -/
theorem value_product (σ a b : ℚ) (e1 e2 : ℤ) (hσ : σ * σ = 1) :
    (σ * (a * (2 : ℚ) ^ e1)) * (σ * (b * (2 : ℚ) ^ e2)) = a * b * (2 : ℚ) ^ (e1 + e2) := by
  rw [zpow_add₀ (two_ne_zero : (2 : ℚ) ≠ 0)]
  linear_combination (a * b * (2 : ℚ) ^ e1 * (2 : ℚ) ^ e2) * hσ

theorem sign_sq (s : Nat) :
    (if s = 0 then (1 : ℚ) else -1) * (if s = 0 then (1 : ℚ) else -1) = 1 := by
  split_ifs <;> norm_num

/-- C12: accuracy of the reciprocal estimate. On every input `x` of the table path
(exponent field `e` with `895 ≤ e < 1149`, any mantissa, either sign), with `x` and the
result read as exact rationals from their bit patterns,
`|x * ApproximateReciprocal(x) - 1| ≤ 1/4096`. -/
theorem ApproximateReciprocal_accuracy (v : Nat)
    (he1 : 895 ≤ v / 2 ^ 52 % 2048) (he2 : v / 2 ^ 52 % 2048 < 1149) :
    ∃ r, ApproximateReciprocal v = some r ∧
      |doubleValue v * doubleValue r - 1| ≤ 1 / 4096 := by
  refine ⟨_, fres_result v he1 he2, ?_⟩
  have hm : v % 2 ^ 52 < 2 ^ 52 := Nat.mod_lt _ (by norm_num)
  obtain ⟨ht0, ht1⟩ := fresTerm_range (v % 2 ^ 52 / 2 ^ 47) (v % 2 ^ 52 / 2 ^ 37 % 1024)
    (by omega) (Nat.mod_lt _ (by norm_num))
  obtain ⟨hlo, hhi⟩ := fres_product_bounds (v % 2 ^ 52) hm
  generalize hT : fresTerm (v % 2 ^ 52 / 2 ^ 47) (v % 2 ^ 52 / 2 ^ 37 % 1024) = T
    at ht0 ht1 hlo hhi ⊢
  have hX : ((T.toNat : Nat) : ℚ) = (T : ℚ) := by
    have h := Int.toNat_of_nonneg ht0
    exact_mod_cast congrArg (fun z : Int => (z : ℚ)) h
  have f1 : ((v / 2 ^ 63 % 2) * 2 ^ 63 + (2045 - v / 2 ^ 52 % 2048) * 2 ^ 52 +
      T.toNat * 2 ^ 29) / 2 ^ 63 % 2 = v / 2 ^ 63 % 2 := by omega
  have f2 : ((v / 2 ^ 63 % 2) * 2 ^ 63 + (2045 - v / 2 ^ 52 % 2048) * 2 ^ 52 +
      T.toNat * 2 ^ 29) / 2 ^ 52 % 2048 = 2045 - v / 2 ^ 52 % 2048 := by omega
  have f3 : ((v / 2 ^ 63 % 2) * 2 ^ 63 + (2045 - v / 2 ^ 52 % 2048) * 2 ^ 52 +
      T.toNat * 2 ^ 29) % 2 ^ 52 = T.toNat * 2 ^ 29 := by omega
  rw [doubleValue_normal v (by omega), doubleValue_normal _ (by rw [f2]; omega), f1, f2, f3,
    value_product _ _ _ _ _ (sign_sq _)]
  have hexp : (((v / 2 ^ 52 % 2048 : Nat) : ℤ) - 1075) +
      (((2045 - v / 2 ^ 52 % 2048 : Nat) : ℤ) - 1075) = -105 := by omega
  rw [hexp]
  generalize v % 2 ^ 52 = M at hlo hhi ⊢
  have hlo' := (Int.cast_le (R := ℚ)).mpr hlo
  have hhi' := (Int.cast_le (R := ℚ)).mpr hhi
  push_cast at hlo' hhi'
  have hprod : ((2 : ℚ) ^ 52 + (M : ℚ)) *
      ((2 : ℚ) ^ 52 + ((T.toNat * 2 ^ 29 : Nat) : ℚ)) * (2 : ℚ) ^ (-105 : ℤ)
      = ((2 : ℚ) ^ 52 + (M : ℚ)) * (2 ^ 23 + (T : ℚ)) / 2 ^ 76 := by
    have hz : (2 : ℚ) ^ (-105 : ℤ) = 1 / 2 ^ 105 := by
      rw [zpow_neg, one_div]
      norm_cast
    rw [hz, Nat.cast_mul, hX]
    push_cast
    field_simp
    ring
  rw [hprod, abs_le]
  norm_num at hlo' hhi' ⊢
  constructor <;> linarith

/-- The input `4.0`. -/
theorem ApproximateReciprocal_accuracy_witness :
    ∃ r, ApproximateReciprocal 0x4010000000000000 = some r ∧
      |doubleValue 0x4010000000000000 * doubleValue r - 1| ≤ 1 / 4096 :=
  ApproximateReciprocal_accuracy 0x4010000000000000 (by decide) (by decide)

/-! ## Accuracy of the square-root estimate -/

/-- A cubic `(Bq - D * k)^2 * (A + k)` that is concave on `0..2047` stays above a bound
there when it does at both ends. -/
theorem cubic_lower (A Bq D k c : Int) (hk0 : 0 ≤ k) (hk1 : k ≤ 2047) (hD : 0 ≤ D)
    (hconc : D * (A + 4094) ≤ 2 * Bq) (c0 : c ≤ Bq ^ 2 * A)
    (c1 : c ≤ (Bq - 2047 * D) ^ 2 * (A + 2047)) :
    c ≤ (Bq - D * k) ^ 2 * (A + k) := by
  have h1 : D * k ≤ D * 2047 := mul_le_mul_of_nonneg_left hk1 hD
  have h2 : 0 ≤ 2 * Bq - D * (A + 2047 + k) := by linarith
  have h3 : 0 ≤ k * (2047 - k) * (D * (2 * Bq - D * (A + 2047 + k))) :=
    mul_nonneg (mul_nonneg hk0 (by linarith)) (mul_nonneg hD h2)
  have h4 : 0 ≤ (Bq ^ 2 * A - c) * (2047 - k) := mul_nonneg (by linarith) (by linarith)
  have h5 : 0 ≤ ((Bq - 2047 * D) ^ 2 * (A + 2047) - c) * k := mul_nonneg (by linarith) hk0
  linarith

/-- A cubic `(Bq - D * k)^2 * (A1 + k)` that is concave on `0..2047` stays below a bound
there when its tangent at `k0` does at both ends. -/
theorem cubic_upper (A1 Bq D k k0 C : Int) (hk0 : 0 ≤ k) (hk1 : k ≤ 2047) (hD : 0 ≤ D)
    (hconc : D * (A1 + 2047 + 2 * k0) ≤ 2 * Bq)
    (t0 : (Bq - D * k0) ^ 2 * (A1 + k0) +
      (Bq - D * k0) * (Bq - D * k0 - 2 * D * (A1 + k0)) * (0 - k0) ≤ C)
    (t1 : (Bq - D * k0) ^ 2 * (A1 + k0) +
      (Bq - D * k0) * (Bq - D * k0 - 2 * D * (A1 + k0)) * (2047 - k0) ≤ C) :
    (Bq - D * k) ^ 2 * (A1 + k) ≤ C := by
  have h1 : D * k ≤ D * 2047 := mul_le_mul_of_nonneg_left hk1 hD
  have h2 : 0 ≤ 2 * Bq - D * (A1 + k + 2 * k0) := by linarith
  have h3 : 0 ≤ (k - k0) ^ 2 * (D * (2 * Bq - D * (A1 + k + 2 * k0))) :=
    mul_nonneg (sq_nonneg _) (mul_nonneg hD h2)
  have h4 : 0 ≤ (C - ((Bq - D * k0) ^ 2 * (A1 + k0) +
      (Bq - D * k0) * (Bq - D * k0 - 2 * D * (A1 + k0)) * (0 - k0))) * (2047 - k) :=
    mul_nonneg (by linarith) (by linarith)
  have h5 : 0 ≤ (C - ((Bq - D * k0) ^ 2 * (A1 + k0) +
      (Bq - D * k0) * (Bq - D * k0 - 2 * D * (A1 + k0)) * (2047 - k0))) * k :=
    mul_nonneg (by linarith) hk0
  linarith

/-- Rows `0..15` (unbiased exponent even): the bounds with `4095^2 * 2^45` and
`4097^2 * 2^45`. -/
theorem frsqrte_rows_low : ∀ j : Nat, j < 16 →
    frsqrteRowBounds (2 ^ 15 + 2048 * (j : Int)) (frsqrte_expected_base.getD j 0)
      (frsqrte_expected_dec.getD j 0) (frsqrteTangent j)
      (4095 ^ 2 * 2 ^ 45) (4097 ^ 2 * 2 ^ 45) := by
  decide

/-- Rows `16..31` (unbiased exponent odd): the bounds with `4095^2 * 2^44` and
`4097^2 * 2^44`. -/
theorem frsqrte_rows_high : ∀ j : Nat, j < 16 →
    frsqrteRowBounds (2 ^ 15 + 2048 * (j : Int)) (frsqrte_expected_base.getD (j + 16) 0)
      (frsqrte_expected_dec.getD (j + 16) 0) (frsqrteTangent (j + 16))
      (4095 ^ 2 * 2 ^ 44) (4097 ^ 2 * 2 ^ 44) := by
  decide

/-- On a row that satisfies the numeric conditions, a significand `M / 2^52` bracketed
by the offset `k` gives a product `M * (2^26 + term)^2` between `2^37 * c` and
`2^37 * C`. -/
theorem frsqrte_bounds_of_row (A B D k0 c C k M : Int) (h : frsqrteRowBounds A B D k0 c C)
    (hk0 : 0 ≤ k) (hk1 : k ≤ 2047) (hM1 : 2 ^ 37 * (A + k) ≤ M)
    (hM2 : M ≤ 2 ^ 37 * (A + k + 1)) :
    2 ^ 37 * c ≤ M * (2 ^ 26 + (B - D * k)) ^ 2 ∧
    M * (2 ^ 26 + (B - D * k)) ^ 2 ≤ 2 ^ 37 * C := by
  obtain ⟨hD, hc1, c0, c1, hc2, t0, t1⟩ := h
  have hl := cubic_lower A (2 ^ 26 + B) D k c hk0 hk1 hD hc1 c0 c1
  have hu := cubic_upper (A + 1) (2 ^ 26 + B) D k k0 C hk0 hk1 hD hc2 t0 t1
  have e : (2 ^ 26 + B - D * k : Int) = 2 ^ 26 + (B - D * k) := by ring
  rw [e] at hl hu
  have hS : 0 ≤ (2 ^ 26 + (B - D * k)) ^ 2 := sq_nonneg _
  generalize (2 ^ 26 + (B - D * k)) ^ 2 = S at hl hu hS ⊢
  have h6 : 2 ^ 37 * (A + k) * S ≤ M * S := mul_le_mul_of_nonneg_right hM1 hS
  have h7 : M * S ≤ 2 ^ 37 * (A + k + 1) * S := mul_le_mul_of_nonneg_right hM2 hS
  constructor <;> linarith

/-- The product of the significand `2^52 + m` of the input and the square of the
significand `2^26 + term` of the square-root estimate: within a factor
`(1 ± 1/4096)^2` of `2^106` on rows `0..15` and of `2^105` on rows `16..31`. -/
theorem frsqrte_product_bounds (m : Nat) (hm : m < 2 ^ 52) :
    ((4095 ^ 2 * 2 ^ 82 : Int) ≤
        (2 ^ 52 + (m : Int)) * (2 ^ 26 + frsqrteTerm (m / 2 ^ 37 / 2048) (m / 2 ^ 37 % 2048)) ^ 2 ∧
      (2 ^ 52 + (m : Int)) * (2 ^ 26 + frsqrteTerm (m / 2 ^ 37 / 2048) (m / 2 ^ 37 % 2048)) ^ 2
        ≤ 4097 ^ 2 * 2 ^ 82) ∧
    ((4095 ^ 2 * 2 ^ 81 : Int) ≤
        (2 ^ 52 + (m : Int)) *
          (2 ^ 26 + frsqrteTerm (m / 2 ^ 37 / 2048 + 16) (m / 2 ^ 37 % 2048)) ^ 2 ∧
      (2 ^ 52 + (m : Int)) *
          (2 ^ 26 + frsqrteTerm (m / 2 ^ 37 / 2048 + 16) (m / 2 ^ 37 % 2048)) ^ 2
        ≤ 4097 ^ 2 * 2 ^ 81) := by
  have hj : m / 2 ^ 37 / 2048 < 16 := by omega
  have hk0 : (0 : Int) ≤ ((m / 2 ^ 37 % 2048 : Nat) : Int) := Int.ofNat_nonneg _
  have hk1 : ((m / 2 ^ 37 % 2048 : Nat) : Int) ≤ 2047 := by omega
  have hM1 : (2 : Int) ^ 37 * (2 ^ 15 + 2048 * ((m / 2 ^ 37 / 2048 : Nat) : Int) +
      ((m / 2 ^ 37 % 2048 : Nat) : Int)) ≤ 2 ^ 52 + (m : Int) := by omega
  have hM2 : 2 ^ 52 + (m : Int) ≤ (2 : Int) ^ 37 * (2 ^ 15 +
      2048 * ((m / 2 ^ 37 / 2048 : Nat) : Int) + ((m / 2 ^ 37 % 2048 : Nat) : Int) + 1) := by
    omega
  have h1 := frsqrte_bounds_of_row _ _ _ _ _ _ _ _ (frsqrte_rows_low _ hj) hk0 hk1 hM1 hM2
  have h2 := frsqrte_bounds_of_row _ _ _ _ _ _ _ _ (frsqrte_rows_high _ hj) hk0 hk1 hM1 hM2
  unfold frsqrteTerm
  constructor
  · constructor <;> [linarith [h1.1]; linarith [h1.2]]
  · constructor <;> [linarith [h2.1]; linarith [h2.2]]

/-- The square of one positive value times another. -/
theorem sq_value_product (a b : ℚ) (x y z : ℤ) (h : x + x + y = z) :
    (a * (2 : ℚ) ^ x) ^ 2 * (b * (2 : ℚ) ^ y) = a ^ 2 * b * (2 : ℚ) ^ z := by
  subst h
  rw [zpow_add₀ (two_ne_zero : (2 : ℚ) ≠ 0), zpow_add₀ (two_ne_zero : (2 : ℚ) ≠ 0)]
  ring

/-- From the integer bounds on the product of significands to the bounds on
`r^2 * x`, for a result with exponent field `E`, term `T` and an input with exponent
field `e` and mantissa `M`, where `2 * E + e = 3068 - d` and the product is bounded
around `2^(105 + d)` (`d = 0` on rows `16..31`, `d = 1` on rows `0..15`). -/
theorem frsqrte_value_bounds (E e M d : Nat) (T : Int) (hT0 : 0 ≤ T)
    (hE : 2 * E + e + d = 3068)
    (lo : (4095 ^ 2 * 2 ^ (81 + d) : Int) ≤ (2 ^ 52 + (M : Int)) * (2 ^ 26 + T) ^ 2)
    (hi : (2 ^ 52 + (M : Int)) * (2 ^ 26 + T) ^ 2 ≤ 4097 ^ 2 * 2 ^ (81 + d)) :
    (1 - 1 / 4096 : ℚ) ^ 2 ≤
      (((2 : ℚ) ^ 52 + ((T.toNat * 2 ^ 26 : Nat) : ℚ)) * (2 : ℚ) ^ ((E : ℤ) - 1075)) ^ 2 *
        (((2 : ℚ) ^ 52 + (M : ℚ)) * (2 : ℚ) ^ ((e : ℤ) - 1075)) ∧
    (((2 : ℚ) ^ 52 + ((T.toNat * 2 ^ 26 : Nat) : ℚ)) * (2 : ℚ) ^ ((E : ℤ) - 1075)) ^ 2 *
        (((2 : ℚ) ^ 52 + (M : ℚ)) * (2 : ℚ) ^ ((e : ℤ) - 1075)) ≤ (1 + 1 / 4096 : ℚ) ^ 2 := by
  have hX : ((T.toNat : Nat) : ℚ) = (T : ℚ) := by
    have h := Int.toNat_of_nonneg hT0
    exact_mod_cast congrArg (fun z : Int => (z : ℚ)) h
  have hexp : ((E : ℤ) - 1075) + ((E : ℤ) - 1075) + ((e : ℤ) - 1075)
      = -(((157 + d : Nat)) : ℤ) := by
    push_cast
    omega
  have lo' : ((4095 : ℚ) ^ 2 * 2 ^ (81 + d)) ≤ ((2 : ℚ) ^ 52 + (M : ℚ)) * (2 ^ 26 + (T : ℚ)) ^ 2 := by
    exact_mod_cast lo
  have hi' : ((2 : ℚ) ^ 52 + (M : ℚ)) * (2 ^ 26 + (T : ℚ)) ^ 2 ≤ ((4097 : ℚ) ^ 2 * 2 ^ (81 + d)) := by
    exact_mod_cast hi
  have h2pos : (0 : ℚ) < 2 ^ (157 + d) := by positivity
  have key : (((2 : ℚ) ^ 52 + ((T.toNat * 2 ^ 26 : Nat) : ℚ)) * (2 : ℚ) ^ ((E : ℤ) - 1075)) ^ 2 *
        (((2 : ℚ) ^ 52 + (M : ℚ)) * (2 : ℚ) ^ ((e : ℤ) - 1075))
      = ((2 : ℚ) ^ 52 + (M : ℚ)) * (2 ^ 26 + (T : ℚ)) ^ 2 / (2 ^ (105 + d)) := by
    rw [sq_value_product _ _ _ _ _ hexp, zpow_neg, zpow_natCast, Nat.cast_mul, hX]
    have e1 : (2 : ℚ) ^ (157 + d) = 2 ^ 52 * 2 ^ (105 + d) := by
      rw [← pow_add]; congr 1; omega
    rw [e1]
    push_cast
    field_simp
    ring
  rw [key]
  have h3pos : (0 : ℚ) < 2 ^ (105 + d) := by positivity
  have e2 : (2 : ℚ) ^ (105 + d) = 2 ^ 24 * 2 ^ (81 + d) := by
    rw [← pow_add]; congr 1; omega
  have h4pos : (0 : ℚ) < 2 ^ (81 + d) := by positivity
  generalize ((2 : ℚ) ^ 52 + (M : ℚ)) * (2 ^ 26 + (T : ℚ)) ^ 2 = Q at lo' hi' ⊢
  rw [e2]
  generalize (2 : ℚ) ^ (81 + d) = W at lo' hi' h4pos ⊢
  constructor
  · rw [le_div_iff₀ (by positivity)]
    norm_num at lo' ⊢
    linarith
  · rw [div_le_iff₀ (by positivity)]
    norm_num at hi' ⊢
    linarith

/-- C13: accuracy of the square-root estimate. On every positive normal input `x` (sign
0, exponent field between 1 and 2046), for every fuel, the result `r` satisfies
`(1 - 1/4096)^2 ≤ r^2 * x ≤ (1 + 1/4096)^2`, with `x` and `r` read as exact rationals
from their bit patterns. -/
theorem ApproximateReciprocalSquareRoot_accuracy (fuel v : Nat) (hs : v / 2 ^ 63 % 2 = 0)
    (he0 : 0 < v / 2 ^ 52 % 2048) (he : v / 2 ^ 52 % 2048 < 2047) :
    ∃ r, ApproximateReciprocalSquareRoot fuel v = some r ∧
      (1 - 1 / 4096 : ℚ) ^ 2 ≤ (doubleValue r) ^ 2 * doubleValue v ∧
      (doubleValue r) ^ 2 * doubleValue v ≤ (1 + 1 / 4096 : ℚ) ^ 2 := by
  have hne : v / 2 ^ 52 % 2048 ≠ 0 := by omega
  have hnz : ¬ (v / 2 ^ 52 % 2048 = 0 ∧ v % 2 ^ 52 = 0) := fun h => hne h.1
  have hm : v % 2 ^ 52 < 2 ^ 52 := Nat.mod_lt _ (by norm_num)
  have hres := frsqrte_result fuel v (Or.inr hne) hs he hnz
  rw [normalisedMantissa_normal v hne, normalisedExponent_normal v hne] at hres
  obtain ⟨⟨lo1, hi1⟩, ⟨lo2, hi2⟩⟩ := frsqrte_product_bounds (v % 2 ^ 52) hm
  refine ⟨_, hres, ?_⟩
  rw [doubleValue_normal v hne, if_pos hs, one_mul]
  have hE1 : ((3068 - ((v / 2 ^ 52 % 2048 : Nat) : Int)) / 2).toNat < 2 ^ 11 := by omega
  have hE2 : 0 < ((3068 - ((v / 2 ^ 52 % 2048 : Nat) : Int)) / 2).toNat := by omega
  by_cases hpar : v / 2 ^ 52 % 2048 % 2 = 0
  · have hif : (if ((v / 2 ^ 52 % 2048 : Nat) : Int) % 2 = 0 then 16 else 0 : Nat) = 16 :=
      if_pos (by omega)
    rw [hif]
    obtain ⟨ht0, ht1⟩ := frsqrteTerm_range (v % 2 ^ 52 / 2 ^ 37 / 2048 + 16)
      (v % 2 ^ 52 / 2 ^ 37 % 2048) (by omega) (Nat.mod_lt _ (by norm_num))
    have hEe : 2 * ((3068 - ((v / 2 ^ 52 % 2048 : Nat) : Int)) / 2).toNat
        + v / 2 ^ 52 % 2048 + 0 = 3068 := by omega
    generalize frsqrteTerm (v % 2 ^ 52 / 2 ^ 37 / 2048 + 16) (v % 2 ^ 52 / 2 ^ 37 % 2048) = T
      at ht0 ht1 lo2 hi2 ⊢
    generalize ((3068 - ((v / 2 ^ 52 % 2048 : Nat) : Int)) / 2).toNat = E at hE1 hE2 hEe ⊢
    have f1 : (E * 2 ^ 52 + T.toNat * 2 ^ 26) / 2 ^ 63 % 2 = 0 := by omega
    have f2 : (E * 2 ^ 52 + T.toNat * 2 ^ 26) / 2 ^ 52 % 2048 = E := by omega
    have f3 : (E * 2 ^ 52 + T.toNat * 2 ^ 26) % 2 ^ 52 = T.toNat * 2 ^ 26 := by omega
    rw [doubleValue_normal _ (by rw [f2]; omega), f1, f2, f3, if_pos rfl, one_mul]
    exact frsqrte_value_bounds E _ _ 0 T ht0 hEe lo2 hi2
  · have hif : (if ((v / 2 ^ 52 % 2048 : Nat) : Int) % 2 = 0 then 16 else 0 : Nat) = 0 :=
      if_neg (by omega)
    rw [hif, Nat.add_zero]
    obtain ⟨ht0, ht1⟩ := frsqrteTerm_range (v % 2 ^ 52 / 2 ^ 37 / 2048)
      (v % 2 ^ 52 / 2 ^ 37 % 2048) (by omega) (Nat.mod_lt _ (by norm_num))
    have hEe : 2 * ((3068 - ((v / 2 ^ 52 % 2048 : Nat) : Int)) / 2).toNat
        + v / 2 ^ 52 % 2048 + 1 = 3068 := by omega
    generalize frsqrteTerm (v % 2 ^ 52 / 2 ^ 37 / 2048) (v % 2 ^ 52 / 2 ^ 37 % 2048) = T
      at ht0 ht1 lo1 hi1 ⊢
    generalize ((3068 - ((v / 2 ^ 52 % 2048 : Nat) : Int)) / 2).toNat = E at hE1 hE2 hEe ⊢
    have f1 : (E * 2 ^ 52 + T.toNat * 2 ^ 26) / 2 ^ 63 % 2 = 0 := by omega
    have f2 : (E * 2 ^ 52 + T.toNat * 2 ^ 26) / 2 ^ 52 % 2048 = E := by omega
    have f3 : (E * 2 ^ 52 + T.toNat * 2 ^ 26) % 2 ^ 52 = T.toNat * 2 ^ 26 := by omega
    rw [doubleValue_normal _ (by rw [f2]; omega), f1, f2, f3, if_pos rfl, one_mul]
    exact frsqrte_value_bounds E _ _ 1 T ht0 hEe lo1 hi1

/-- The input `1.0`. -/
theorem ApproximateReciprocalSquareRoot_accuracy_witness :
    ∃ r, ApproximateReciprocalSquareRoot 0 0x3FF0000000000000 = some r ∧
      (1 - 1 / 4096 : ℚ) ^ 2 ≤ (doubleValue r) ^ 2 * doubleValue 0x3FF0000000000000 ∧
      (doubleValue r) ^ 2 * doubleValue 0x3FF0000000000000 ≤ (1 + 1 / 4096 : ℚ) ^ 2 :=
  ApproximateReciprocalSquareRoot_accuracy 0 0x3FF0000000000000 (by decide) (by decide)
    (by decide)

/-! ## Results of the reciprocal estimate in single precision -/

/-- The function `copysign` on a non-negative magnitude: the magnitude plus the sign
bit of the second argument. -/
theorem copysign_eq (x v : Nat) (hx : x < 2 ^ 63) :
    copysign x v = (v / 2 ^ 63 % 2) * 2 ^ 63 + x := by
  unfold copysign
  have e1 : x &&& ((1 <<< 63) - 1) = x := by
    have h := Nat.and_pow_two_sub_one_eq_mod x 63
    rw [Nat.mod_eq_of_lt hx] at h
    exact h
  rw [e1, and_sign, Nat.lor_comm, Nat.mul_comm _ (2 ^ 63), ← Nat.mul_add_lt_is_or hx]

/-- The special cases of `ApproximateReciprocal`, by the fields of the input. -/
theorem fres_special (v : Nat) :
    (v / 2 ^ 52 % 2048 = 0 ∧ v % 2 ^ 52 = 0 →
      ApproximateReciprocal v = some (copysign infinity v)) ∧
    (v / 2 ^ 52 % 2048 = 2047 ∧ v % 2 ^ 52 = 0 →
      ApproximateReciprocal v = some (copysign 0 v)) ∧
    (v / 2 ^ 52 % 2048 < 895 ∧ ¬ (v / 2 ^ 52 % 2048 = 0 ∧ v % 2 ^ 52 = 0) →
      ApproximateReciprocal v = some (copysign float_max v)) ∧
    (1149 ≤ v / 2 ^ 52 % 2048 ∧ v / 2 ^ 52 % 2048 < 2047 →
      ApproximateReciprocal v = some (copysign 0 v)) := by
  have hlt : ∀ c : Nat, c < 2 ^ 11 →
      lt64 (v &&& (0x7FF <<< 52)) (c * 2 ^ 52) = decide (v / 2 ^ 52 % 2048 < c) := by
    intro c hc
    rw [and_exponent, lt64_of_lt (exponent_lt v) (by omega)]
    congr 1
    apply propext
    constructor <;> intro h <;> omega
  have h895 := hlt 895 (by norm_num)
  have h1149 := hlt 1149 (by norm_num)
  have c895 : (895 : Nat) <<< 52 = 895 * 2 ^ 52 := by decide
  have c1149 : (1149 : Nat) <<< 52 = 1149 * 2 ^ 52 := by decide
  refine ⟨?_, ?_, ?_, ?_⟩
  · rintro ⟨he, hm⟩
    have g1 : v &&& ((1 <<< 52) - 1) = 0 ∧ v &&& (0x7FF <<< 52) = 0 := by
      rw [and_mantissa, and_exponent]; omega
    unfold ApproximateReciprocal
    simp only [if_pos g1]
  · rintro ⟨he, hm⟩
    have g1 : ¬ (v &&& ((1 <<< 52) - 1) = 0 ∧ v &&& (0x7FF <<< 52) = 0) := by
      rw [and_mantissa, and_exponent]; omega
    have g2 : v &&& (0x7FF <<< 52) = 0x7FF <<< 52 := by
      rw [and_exponent]; norm_num; omega
    have g3 : v &&& ((1 <<< 52) - 1) = 0 := by
      rw [and_mantissa]; exact hm
    unfold ApproximateReciprocal
    simp only [if_neg g1, if_pos g2, if_pos g3]
  · rintro ⟨he, hnz⟩
    have g1 : ¬ (v &&& ((1 <<< 52) - 1) = 0 ∧ v &&& (0x7FF <<< 52) = 0) := by
      rw [and_mantissa, and_exponent]; omega
    have g2 : ¬ v &&& (0x7FF <<< 52) = 0x7FF <<< 52 := by
      rw [and_exponent]; norm_num; omega
    have g3 : lt64 (v &&& (0x7FF <<< 52)) (895 <<< 52) = true := by
      rw [c895, h895]; exact decide_eq_true he
    unfold ApproximateReciprocal
    simp only [if_neg g1, if_neg g2, g3, if_true]
  · rintro ⟨he1, he2⟩
    have g1 : ¬ (v &&& ((1 <<< 52) - 1) = 0 ∧ v &&& (0x7FF <<< 52) = 0) := by
      rw [and_mantissa, and_exponent]; omega
    have g2 : ¬ v &&& (0x7FF <<< 52) = 0x7FF <<< 52 := by
      rw [and_exponent]; norm_num; omega
    have g3 : lt64 (v &&& (0x7FF <<< 52)) (895 <<< 52) = false := by
      rw [c895, h895]; exact decide_eq_false (by omega)
    have g4 : lt64 (v &&& (0x7FF <<< 52)) (1149 <<< 52) = false := by
      rw [c1149, h1149]; exact decide_eq_false (by omega)
    unfold ApproximateReciprocal
    simp only [if_neg g1, if_neg g2, g3, g4]
    simp

/-- The conversion to binary64 of a normal binary32 pattern given by its fields. -/
theorem floatToDouble_normal (s e t : Nat) (hs : s < 2) (he0 : 0 < e) (he : e < 255)
    (ht : t < 2 ^ 23) :
    floatToDouble (s * 2 ^ 31 + e * 2 ^ 23 + t) = s * 2 ^ 63 + (e + 896) * 2 ^ 52 + t * 2 ^ 29 := by
  have f1 : (s * 2 ^ 31 + e * 2 ^ 23 + t) / 2 ^ 31 % 2 = s := by omega
  have f2 : (s * 2 ^ 31 + e * 2 ^ 23 + t) / 2 ^ 23 % 256 = e := by omega
  have f3 : (s * 2 ^ 31 + e * 2 ^ 23 + t) % 2 ^ 23 = t := by omega
  unfold floatToDouble
  simp only [f1, f2, f3]
  rw [if_neg (by omega), if_neg (by omega)]

/-- C21: on every input that is not a NaN the result of `ApproximateReciprocal` is
exactly representable in single precision: it is a signed zero, a signed infinity, or a
pattern whose exponent field lies in `897..1150` (the normal range of single precision)
and whose low 29 mantissa bits are zero; in each case it is the conversion to `double`
of a 32-bit pattern, so narrowing it to 32 bits loses nothing. -/
theorem ApproximateReciprocal_single_precision (v : Nat)
    (hnan : ¬ (v / 2 ^ 52 % 2048 = 2047 ∧ v % 2 ^ 52 ≠ 0)) :
    ∃ r, ApproximateReciprocal v = some r ∧
      (r = 0x0000000000000000 ∨ r = 0x8000000000000000 ∨
        r = 0x7FF0000000000000 ∨ r = 0xFFF0000000000000 ∨
        (897 ≤ r / 2 ^ 52 % 2048 ∧ r / 2 ^ 52 % 2048 ≤ 1150 ∧ r % 2 ^ 29 = 0)) ∧
      ∃ f, f < 2 ^ 32 ∧ floatToDouble f = r := by
  obtain ⟨hzero, hinf, hsmall, hlarge⟩ := fres_special v
  have hs : v / 2 ^ 63 % 2 = 0 ∨ v / 2 ^ 63 % 2 = 1 := by omega
  have he : v / 2 ^ 52 % 2048 < 2048 := Nat.mod_lt _ (by norm_num)
  by_cases h1 : v / 2 ^ 52 % 2048 = 0 ∧ v % 2 ^ 52 = 0
  · refine ⟨_, hzero h1, ?_⟩
    rw [copysign_eq _ _ (by decide)]
    rcases hs with h | h <;> rw [h]
    · exact ⟨by decide, 0x7F800000, by decide, by decide⟩
    · exact ⟨by decide, 0xFF800000, by decide, by decide⟩
  by_cases h2 : v / 2 ^ 52 % 2048 = 2047
  · have hm : v % 2 ^ 52 = 0 := by
      by_contra hne
      exact hnan ⟨h2, hne⟩
    refine ⟨_, hinf ⟨h2, hm⟩, ?_⟩
    rw [copysign_eq _ _ (by decide)]
    rcases hs with h | h <;> rw [h]
    · exact ⟨by decide, 0x00000000, by decide, by decide⟩
    · exact ⟨by decide, 0x80000000, by decide, by decide⟩
  by_cases h3 : v / 2 ^ 52 % 2048 < 895
  · refine ⟨_, hsmall ⟨h3, h1⟩, ?_⟩
    rw [copysign_eq _ _ (by decide)]
    rcases hs with h | h <;> rw [h]
    · exact ⟨by decide, 0x7F7FFFFF, by decide, by decide⟩
    · exact ⟨by decide, 0xFF7FFFFF, by decide, by decide⟩
  by_cases h4 : 1149 ≤ v / 2 ^ 52 % 2048
  · refine ⟨_, hlarge ⟨h4, by omega⟩, ?_⟩
    rw [copysign_eq _ _ (by decide)]
    rcases hs with h | h <;> rw [h]
    · exact ⟨by decide, 0x00000000, by decide, by decide⟩
    · exact ⟨by decide, 0x80000000, by decide, by decide⟩
  · have hm : v % 2 ^ 52 < 2 ^ 52 := Nat.mod_lt _ (by norm_num)
    obtain ⟨ht0, ht1⟩ := fresTerm_range (v % 2 ^ 52 / 2 ^ 47) (v % 2 ^ 52 / 2 ^ 37 % 1024)
      (by omega) (Nat.mod_lt _ (by norm_num))
    refine ⟨_, fres_result v (by omega) (by omega), ?_, ?_⟩
    · right; right; right; right
      omega
    · refine ⟨(v / 2 ^ 63 % 2) * 2 ^ 31 + (1149 - v / 2 ^ 52 % 2048) * 2 ^ 23 +
        (fresTerm (v % 2 ^ 52 / 2 ^ 47) (v % 2 ^ 52 / 2 ^ 37 % 1024)).toNat, by omega, ?_⟩
      rw [floatToDouble_normal _ _ _ (by omega) (by omega) (by omega) (by omega)]
      omega

/-- The least denormal `0x0000000000000001`, whose estimate saturates to the largest
single-precision value. -/
theorem ApproximateReciprocal_single_precision_witness :
    ∃ r, ApproximateReciprocal 1 = some r ∧
      (r = 0x0000000000000000 ∨ r = 0x8000000000000000 ∨
        r = 0x7FF0000000000000 ∨ r = 0xFFF0000000000000 ∨
        (897 ≤ r / 2 ^ 52 % 2048 ∧ r / 2 ^ 52 % 2048 ≤ 1150 ∧ r % 2 ^ 29 = 0)) ∧
      ∃ f, f < 2 ^ 32 ∧ floatToDouble f = r :=
  ApproximateReciprocal_single_precision 1 (by decide)

/-! ## Monotonicity of the reciprocal estimate -/

/-- Within a row the term does not increase with the offset. -/
theorem fresTerm_antitone (r k k' : Nat) (hr : r < 32) (hk : k ≤ k') :
    fresTerm r k' ≤ fresTerm r k := by
  obtain ⟨hd, -, -⟩ := fres_rows r hr
  unfold fresTerm
  have h1 : fres_expected_dec.getD r 0 * (k : Int) ≤ fres_expected_dec.getD r 0 * (k' : Int) :=
    mul_le_mul_of_nonneg_left (by exact_mod_cast hk) hd
  have h2 : (fres_expected_dec.getD r 0 * (k : Int) + 1) / 2
      ≤ (fres_expected_dec.getD r 0 * (k' : Int) + 1) / 2 :=
    Int.ediv_le_ediv (by norm_num) (by linarith)
  linarith

/-- The first term of a row is its base. -/
theorem fresTerm_zero (r : Nat) : fresTerm r 0 = fres_expected_base.getD r 0 := by
  unfold fresTerm
  simp

/-- Two rows that are not adjacent: the base of the later row is at most the last term
of the earlier one. -/
theorem fres_rows_apart : ∀ r, r < 32 → ∀ r', r' < 32 → r + 2 ≤ r' →
    fres_expected_base.getD r' 0 ≤ fresTerm r 1023 := by
  decide

/-- Two adjacent rows: the base of the later row is at most the term at offset 1021 of
the earlier one. -/
theorem fres_rows_adjacent_base : ∀ r, r < 31 →
    fres_expected_base.getD (r + 1) 0 ≤ fresTerm r 1021 := by
  decide

/-- Two adjacent rows: the term at offset 3 of the later row is at most the last term of
the earlier one. -/
theorem fres_rows_adjacent_last : ∀ r, r < 31 →
    fresTerm (r + 1) 3 ≤ fresTerm r 1023 := by
  decide

/-- Two adjacent rows, the last two offsets `1022 + c / 3` of the earlier row against
the first three offsets `c % 3` of the later row (`c < 6`): the term does not increase
exactly outside the listed step-ups. -/
theorem fres_rows_boundary : ∀ r : Nat, r < 31 → ∀ c : Nat, c < 6 →
    (fresTerm (r + 1) (c % 3) ≤ fresTerm r (1022 + c / 3) ↔
      (1024 * r + 1022 + c / 3, 1024 * (r + 1) + c % 3) ∉ fresStepUps) := by
  decide

/-- Every listed step-up joins the last two offsets of a row to the first three of the
next row. -/
theorem fresStepUps_shape (i j : Nat) (h : (i, j) ∈ fresStepUps) :
    j / 1024 = i / 1024 + 1 ∧ 1022 ≤ i % 1024 ∧ j % 1024 ≤ 2 := by
  simp only [fresStepUps, List.mem_cons, Prod.mk.injEq, List.mem_singleton,
    List.not_mem_nil, or_false] at h
  omega

/-- Over the whole index range: between two indices `i ≤ j` the term does not increase,
except exactly at the listed step-ups. -/
theorem fresTerm_index_mono (i j : Nat) (hij : i ≤ j) (hj : j < 32768) :
    fresTerm (j / 1024) (j % 1024) ≤ fresTerm (i / 1024) (i % 1024) ↔
      (i, j) ∉ fresStepUps := by
  have hrj : j / 1024 < 32 := by omega
  have hri : i / 1024 < 32 := by omega
  have hfirst : fresTerm (j / 1024) (j % 1024) ≤ fres_expected_base.getD (j / 1024) 0 := by
    rw [← fresTerm_zero]
    exact fresTerm_antitone _ _ _ hrj (Nat.zero_le _)
  have hlast : fresTerm (i / 1024) 1023 ≤ fresTerm (i / 1024) (i % 1024) :=
    fresTerm_antitone _ _ _ hri (by omega)
  by_cases hsame : i / 1024 = j / 1024
  · have hle : fresTerm (j / 1024) (j % 1024) ≤ fresTerm (i / 1024) (i % 1024) := by
      rw [hsame]
      exact fresTerm_antitone _ _ _ hrj (by omega)
    exact ⟨fun _ hmem => by have := fresStepUps_shape i j hmem; omega, fun _ => hle⟩
  by_cases hapart : i / 1024 + 2 ≤ j / 1024
  · have hle : fresTerm (j / 1024) (j % 1024) ≤ fresTerm (i / 1024) (i % 1024) :=
      le_trans hfirst (le_trans (fres_rows_apart _ hri _ hrj hapart) hlast)
    exact ⟨fun _ hmem => by have := fresStepUps_shape i j hmem; omega, fun _ => hle⟩
  have hadj : j / 1024 = i / 1024 + 1 := by omega
  have hr31 : i / 1024 < 31 := by omega
  by_cases hlow : i % 1024 ≤ 1021
  · have hle : fresTerm (j / 1024) (j % 1024) ≤ fresTerm (i / 1024) (i % 1024) := by
      refine le_trans hfirst ?_
      rw [hadj]
      exact le_trans (fres_rows_adjacent_base _ hr31) (fresTerm_antitone _ _ _ hri hlow)
    exact ⟨fun _ hmem => by have := fresStepUps_shape i j hmem; omega, fun _ => hle⟩
  by_cases hhigh : 3 ≤ j % 1024
  · have hle : fresTerm (j / 1024) (j % 1024) ≤ fresTerm (i / 1024) (i % 1024) := by
      refine le_trans (fresTerm_antitone _ _ _ hrj hhigh) ?_
      rw [hadj]
      exact le_trans (fres_rows_adjacent_last _ hr31) hlast
    exact ⟨fun _ hmem => by have := fresStepUps_shape i j hmem; omega, fun _ => hle⟩
  · have hb := fres_rows_boundary (i / 1024) hr31 (3 * (i % 1024 - 1022) + j % 1024)
      (by omega)
    have e0 : (3 * (i % 1024 - 1022) + j % 1024) % 3 = j % 1024 := by omega
    have e1 : 1022 + (3 * (i % 1024 - 1022) + j % 1024) / 3 = i % 1024 := by omega
    have e2 : 1024 * (i / 1024) + 1022 + (3 * (i % 1024 - 1022) + j % 1024) / 3 = i := by
      omega
    have e3 : 1024 * (i / 1024 + 1) + j % 1024 = j := by omega
    rw [e2, e1, e0, e3, ← hadj] at hb
    exact hb

/-- The value of a positive pattern with a nonzero exponent field, as a quotient of
natural numbers. -/
theorem doubleValue_pos (v : Nat) (hv : v < 2 ^ 63) (he : v / 2 ^ 52 % 2048 ≠ 0) :
    doubleValue v = (((2 ^ 52 + v % 2 ^ 52) * 2 ^ (v / 2 ^ 52 % 2048) : Nat) : ℚ) / 2 ^ 1075 := by
  have hs : v / 2 ^ 63 % 2 = 0 := by omega
  rw [doubleValue_normal v he, if_pos hs, one_mul,
    zpow_sub₀ (two_ne_zero : (2 : ℚ) ≠ 0), zpow_natCast, zpow_ofNat, ← mul_div_assoc]
  congr 1
  push_cast
  rfl

/-- Positive patterns with a nonzero exponent field are ordered as the values they
denote. -/
theorem doubleValue_le_iff (x y : Nat) (hx : x < 2 ^ 63) (hy : y < 2 ^ 63)
    (hex : x / 2 ^ 52 % 2048 ≠ 0) (hey : y / 2 ^ 52 % 2048 ≠ 0) :
    doubleValue x ≤ doubleValue y ↔ x ≤ y := by
  rw [doubleValue_pos x hx hex, doubleValue_pos y hy hey,
    div_le_div_iff_of_pos_right (by positivity : (0 : ℚ) < 2 ^ 1075), Nat.cast_le]
  have hmx : x % 2 ^ 52 < 2 ^ 52 := Nat.mod_lt _ (by norm_num)
  have hmy : y % 2 ^ 52 < 2 ^ 52 := Nat.mod_lt _ (by norm_num)
  have key : ∀ a b : Nat, a < 2 ^ 63 → b < 2 ^ 63 → a / 2 ^ 52 % 2048 < b / 2 ^ 52 % 2048 →
      (2 ^ 52 + a % 2 ^ 52) * 2 ^ (a / 2 ^ 52 % 2048)
        < (2 ^ 52 + b % 2 ^ 52) * 2 ^ (b / 2 ^ 52 % 2048) := by
    intro a b _ _ hlt
    have h1 : 2 ^ (a / 2 ^ 52 % 2048 + 1) ≤ 2 ^ (b / 2 ^ 52 % 2048) :=
      Nat.pow_le_pow_right (by norm_num) hlt
    have hpos : 0 < 2 ^ (a / 2 ^ 52 % 2048) := Nat.two_pow_pos _
    have hma : a % 2 ^ 52 < 2 ^ 52 := Nat.mod_lt _ (by norm_num)
    calc (2 ^ 52 + a % 2 ^ 52) * 2 ^ (a / 2 ^ 52 % 2048)
        < (2 ^ 52 + 2 ^ 52) * 2 ^ (a / 2 ^ 52 % 2048) :=
          Nat.mul_lt_mul_of_pos_right (by omega) hpos
      _ = 2 ^ 52 * 2 ^ (a / 2 ^ 52 % 2048 + 1) := by rw [pow_succ]; ring
      _ ≤ 2 ^ 52 * 2 ^ (b / 2 ^ 52 % 2048) := Nat.mul_le_mul_left _ h1
      _ ≤ (2 ^ 52 + b % 2 ^ 52) * 2 ^ (b / 2 ^ 52 % 2048) :=
          Nat.mul_le_mul_right _ (by omega)
  rcases Nat.lt_trichotomy (x / 2 ^ 52 % 2048) (y / 2 ^ 52 % 2048) with h | h | h
  · have h1 := key x y hx hy h
    constructor
    · intro _; omega
    · intro _; exact le_of_lt h1
  · rw [h]
    have hpos : 0 < 2 ^ (y / 2 ^ 52 % 2048) := Nat.two_pow_pos _
    constructor
    · intro h2
      have h3 := Nat.le_of_mul_le_mul_right h2 hpos
      omega
    · intro h2
      exact Nat.mul_le_mul_right _ (by omega)
  · have h1 := key y x hy hx h
    constructor
    · intro h2; omega
    · intro h2; omega

/-- C22, as stated, fails at the adjacent positive patterns `x = 0x3FF07FFFFFFFFFFF` and
`y = 0x3FF0800000000000` (exponent field 1023, `x < y`, the last mantissa of table row 0
and the first of row 1): `ApproximateReciprocal x = 0x3FEF06FE00000000` is smaller than
`ApproximateReciprocal y = 0x3FEF070000000000`. -/
theorem ApproximateReciprocal_step_up :
    (0x3FF07FFFFFFFFFFF : Nat) ≤ 0x3FF0800000000000 ∧
    0x3FF07FFFFFFFFFFF / 2 ^ 63 = 0 ∧ 0x3FF0800000000000 / 2 ^ 63 = 0 ∧
    0x3FF07FFFFFFFFFFF / 2 ^ 52 % 2048 = 1023 ∧ 0x3FF0800000000000 / 2 ^ 52 % 2048 = 1023 ∧
    0x3FF07FFFFFFFFFFF % 2 ^ 52 / 2 ^ 37 = 1023 ∧ 0x3FF0800000000000 % 2 ^ 52 / 2 ^ 37 = 1024 ∧
    ApproximateReciprocal 0x3FF07FFFFFFFFFFF = some 0x3FEF06FE00000000 ∧
    ApproximateReciprocal 0x3FF0800000000000 = some 0x3FEF070000000000 ∧
    ¬ ((0x3FEF070000000000 : Nat) ≤ 0x3FEF06FE00000000) := by
  decide

/-- C22, amended: for positive table-path inputs `x ≤ y` (exponent fields in
`895..1148`; the order of the patterns is the order of the values, for the inputs and
for the results), `ApproximateReciprocal y ≤ ApproximateReciprocal x` holds exactly
when `x` and `y` do not have the same exponent with mantissa indices
(`i = mantissa >> 37`) forming one of the fourteen listed step-ups. In particular it
holds across exponent boundaries, within a table row, between rows that are not
adjacent, and between adjacent rows outside the last two offsets of the earlier row and
the first three of the later one. -/
theorem ApproximateReciprocal_monotone (x y : Nat) (hx : x < 2 ^ 63) (hy : y < 2 ^ 63)
    (hex1 : 895 ≤ x / 2 ^ 52 % 2048) (hex2 : x / 2 ^ 52 % 2048 < 1149)
    (hey1 : 895 ≤ y / 2 ^ 52 % 2048) (hey2 : y / 2 ^ 52 % 2048 < 1149) (hxy : x ≤ y) :
    ∃ a b, ApproximateReciprocal x = some a ∧ ApproximateReciprocal y = some b ∧
      doubleValue x ≤ doubleValue y ∧
      (doubleValue b ≤ doubleValue a ↔ b ≤ a) ∧
      (b ≤ a ↔ ¬ (x / 2 ^ 52 % 2048 = y / 2 ^ 52 % 2048 ∧
        (x % 2 ^ 52 / 2 ^ 37, y % 2 ^ 52 / 2 ^ 37) ∈ fresStepUps)) ∧
      (x / 2 ^ 52 % 2048 ≠ y / 2 ^ 52 % 2048 → b ≤ a) ∧
      (x % 2 ^ 52 / 2 ^ 47 = y % 2 ^ 52 / 2 ^ 47 → b ≤ a) ∧
      (y % 2 ^ 52 / 2 ^ 47 ≠ x % 2 ^ 52 / 2 ^ 47 + 1 → b ≤ a) ∧
      (x % 2 ^ 52 / 2 ^ 37 % 1024 < 1022 → b ≤ a) ∧
      (2 < y % 2 ^ 52 / 2 ^ 37 % 1024 → b ≤ a) := by
  have hmx : x % 2 ^ 52 < 2 ^ 52 := Nat.mod_lt _ (by norm_num)
  have hmy : y % 2 ^ 52 < 2 ^ 52 := Nat.mod_lt _ (by norm_num)
  have hrx : x % 2 ^ 52 / 2 ^ 37 / 1024 = x % 2 ^ 52 / 2 ^ 47 := by omega
  have hry : y % 2 ^ 52 / 2 ^ 37 / 1024 = y % 2 ^ 52 / 2 ^ 47 := by omega
  have hmono : x / 2 ^ 52 % 2048 = y / 2 ^ 52 % 2048 →
      (fresTerm (y % 2 ^ 52 / 2 ^ 47) (y % 2 ^ 52 / 2 ^ 37 % 1024)
          ≤ fresTerm (x % 2 ^ 52 / 2 ^ 47) (x % 2 ^ 52 / 2 ^ 37 % 1024) ↔
        (x % 2 ^ 52 / 2 ^ 37, y % 2 ^ 52 / 2 ^ 37) ∉ fresStepUps) := by
    intro heq
    have h := fresTerm_index_mono (x % 2 ^ 52 / 2 ^ 37) (y % 2 ^ 52 / 2 ^ 37) (by omega)
      (by omega)
    rw [hrx, hry] at h
    exact h
  have hshape := fresStepUps_shape (x % 2 ^ 52 / 2 ^ 37) (y % 2 ^ 52 / 2 ^ 37)
  rw [hrx, hry] at hshape
  obtain ⟨hx0, hx1⟩ := fresTerm_range (x % 2 ^ 52 / 2 ^ 47) (x % 2 ^ 52 / 2 ^ 37 % 1024)
    (by omega) (Nat.mod_lt _ (by norm_num))
  obtain ⟨hy0, hy1⟩ := fresTerm_range (y % 2 ^ 52 / 2 ^ 47) (y % 2 ^ 52 / 2 ^ 37 % 1024)
    (by omega) (Nat.mod_lt _ (by norm_num))
  refine ⟨_, _, fres_result x hex1 hex2, fres_result y hey1 hey2, ?_⟩
  generalize fresTerm (x % 2 ^ 52 / 2 ^ 47) (x % 2 ^ 52 / 2 ^ 37 % 1024) = Tx
    at hmono hx0 hx1 ⊢
  generalize fresTerm (y % 2 ^ 52 / 2 ^ 47) (y % 2 ^ 52 / 2 ^ 37 % 1024) = Ty
    at hmono hy0 hy1 ⊢
  have hab : x / 2 ^ 52 % 2048 = y / 2 ^ 52 % 2048 →
      ((y / 2 ^ 63 % 2) * 2 ^ 63 + (2045 - y / 2 ^ 52 % 2048) * 2 ^ 52 + Ty.toNat * 2 ^ 29
          ≤ (x / 2 ^ 63 % 2) * 2 ^ 63 + (2045 - x / 2 ^ 52 % 2048) * 2 ^ 52 + Tx.toNat * 2 ^ 29
        ↔ Ty ≤ Tx) := by
    intro heq
    constructor <;> intro h <;> omega
  have hne : x / 2 ^ 52 % 2048 ≠ y / 2 ^ 52 % 2048 →
      (y / 2 ^ 63 % 2) * 2 ^ 63 + (2045 - y / 2 ^ 52 % 2048) * 2 ^ 52 + Ty.toNat * 2 ^ 29
        ≤ (x / 2 ^ 63 % 2) * 2 ^ 63 + (2045 - x / 2 ^ 52 % 2048) * 2 ^ 52 + Tx.toNat * 2 ^ 29 := by
    intro hne
    omega
  have hiff : ((y / 2 ^ 63 % 2) * 2 ^ 63 + (2045 - y / 2 ^ 52 % 2048) * 2 ^ 52 + Ty.toNat * 2 ^ 29
        ≤ (x / 2 ^ 63 % 2) * 2 ^ 63 + (2045 - x / 2 ^ 52 % 2048) * 2 ^ 52 + Tx.toNat * 2 ^ 29
      ↔ ¬ (x / 2 ^ 52 % 2048 = y / 2 ^ 52 % 2048 ∧
        (x % 2 ^ 52 / 2 ^ 37, y % 2 ^ 52 / 2 ^ 37) ∈ fresStepUps)) := by
    by_cases heq : x / 2 ^ 52 % 2048 = y / 2 ^ 52 % 2048
    · rw [hab heq, hmono heq]
      exact ⟨fun h hc => h hc.2, fun h hc => h ⟨heq, hc⟩⟩
    · exact ⟨fun _ hc => heq hc.1, fun _ => hne heq⟩
  have hstep : (x / 2 ^ 52 % 2048 = y / 2 ^ 52 % 2048 →
        (x % 2 ^ 52 / 2 ^ 37, y % 2 ^ 52 / 2 ^ 37) ∉ fresStepUps) →
      (y / 2 ^ 63 % 2) * 2 ^ 63 + (2045 - y / 2 ^ 52 % 2048) * 2 ^ 52 + Ty.toNat * 2 ^ 29
        ≤ (x / 2 ^ 63 % 2) * 2 ^ 63 + (2045 - x / 2 ^ 52 % 2048) * 2 ^ 52 + Tx.toNat * 2 ^ 29 :=
    fun h => hiff.mpr (fun hc => h hc.1 hc.2)
  refine ⟨(doubleValue_le_iff x y hx hy (by omega) (by omega)).mpr hxy,
    doubleValue_le_iff _ _ (by omega) (by omega) (by omega) (by omega), hiff, hne, ?_, ?_, ?_, ?_⟩
  · intro hrow
    exact hstep (fun _ hmem => by have := hshape hmem; omega)
  · intro hrow
    exact hstep (fun _ hmem => by have := hshape hmem; omega)
  · intro hk
    exact hstep (fun _ hmem => by have := hshape hmem; omega)
  · intro hk
    exact hstep (fun _ hmem => by have := hshape hmem; omega)

/-- The inputs `1.0` and `2.0`, across an exponent boundary. -/
theorem ApproximateReciprocal_monotone_witness :
    ∃ a b, ApproximateReciprocal 0x3FF0000000000000 = some a ∧
      ApproximateReciprocal 0x4000000000000000 = some b ∧
      doubleValue 0x3FF0000000000000 ≤ doubleValue 0x4000000000000000 ∧
      (doubleValue b ≤ doubleValue a ↔ b ≤ a) ∧
      (b ≤ a ↔ ¬ (0x3FF0000000000000 / 2 ^ 52 % 2048 = 0x4000000000000000 / 2 ^ 52 % 2048 ∧
        (0x3FF0000000000000 % 2 ^ 52 / 2 ^ 37, 0x4000000000000000 % 2 ^ 52 / 2 ^ 37)
          ∈ fresStepUps)) ∧
      (0x3FF0000000000000 / 2 ^ 52 % 2048 ≠ 0x4000000000000000 / 2 ^ 52 % 2048 → b ≤ a) ∧
      (0x3FF0000000000000 % 2 ^ 52 / 2 ^ 47 = 0x4000000000000000 % 2 ^ 52 / 2 ^ 47 → b ≤ a) ∧
      (0x4000000000000000 % 2 ^ 52 / 2 ^ 47 ≠ 0x3FF0000000000000 % 2 ^ 52 / 2 ^ 47 + 1 →
        b ≤ a) ∧
      (0x3FF0000000000000 % 2 ^ 52 / 2 ^ 37 % 1024 < 1022 → b ≤ a) ∧
      (2 < 0x4000000000000000 % 2 ^ 52 / 2 ^ 37 % 1024 → b ≤ a) :=
  ApproximateReciprocal_monotone 0x3FF0000000000000 0x4000000000000000 (by decide) (by decide)
    (by decide) (by decide) (by decide) (by decide) (by decide)

end MathUtil
